import Mathlib

/-!
# DJTPMS: a shallow embedding of the sensor record and its decoder

The record of `src/DJTPMS.h` becomes a structure, every member function of
`src/DJTPMS.cpp` that mutates it becomes a function returning the new record
(with the `bool` result in front when the C++ function returns one), and the
clock `millis()` becomes an explicit argument `now`.

Conventions of the embedding:

* `uint8_t` values that are only copied are of type `Byte` (`Fin 256`); values
  that are computed (`currentByte`, `nibbleCount`, `pressureRaw`) are `Nat`
  with the truncation written out as `% 256` / `% 65536`.
* A `const uint8_t* data, size_t length` pair is the list of the `length` bytes
  pointed to.
* A `const char*` is the list of characters found at the pointer; the loops stop
  at the first `'\0'` exactly as the C++ loops do, the end of the list standing
  for the terminator of the buffer.
* A fixed-size byte array of `n` cells is a `Buf n`; `mac` is a `Buf 6`.
* The heap is an argument too: `update(const char*)` takes the answer of its
  `malloc` call as an `Allocator`, `none` being the null pointer.
* `unsigned long` has `w` bits, `w` being an argument of the functions that do
  clock arithmetic; the `float` accessors are left out, except `getPressureKPA`,
  given as the integer it converts.
-/

namespace DJTPMS

/-! ## Data model -/

/-- One `uint8_t` cell. -/
abbrev Byte := Fin 256

/-- A byte array of exactly `n` cells (`uint8_t[n]`, or `malloc(n)`). -/
abbrev Buf (n : Nat) := { l : List Byte // l.length = n }

/-- Header constant `TPMS_MIN_PACKET_LENGTH`. -/
def TPMS_MIN_PACKET_LENGTH : Nat := 12

/-- Header constant `PRESSURE_OFFSET`. -/
def PRESSURE_OFFSET : Nat := 101

/-- The data members of `class DJTPMS`. `macStr` and `macStrRaw` hold the whole
character arrays (18 and 13 cells), terminator included. -/
structure Record where
  mac : Buf 6
  temperatureRaw : Byte
  voltageRaw : Byte
  pressureRaw : Nat
  flags : Byte
  lastUpdateTime : Nat
  valid : Bool
  macSet : Bool
  macStr : List Char
  macStrRaw : List Char
deriving DecidableEq

/-- The array cell assignment `buf[i] = v`. -/
def Buf.write {n : Nat} (b : Buf n) (i : Nat) (v : Byte) : Buf n :=
  ⟨b.val.set i v, by rw [List.length_set]; exact b.property⟩

/-- The six zero bytes left by `memset(mac, 0, 6)`. -/
def zeroMac : Buf 6 := ⟨List.replicate 6 0, rfl⟩

/-- The six bytes `data[off] .. data[off+5]`, as read by `memcmp` and `memcpy`. -/
def readMac (data : List Byte) (off : Nat) : Buf 6 :=
  ⟨[data.getD off 0, data.getD (off + 1) 0, data.getD (off + 2) 0,
    data.getD (off + 3) 0, data.getD (off + 4) 0, data.getD (off + 5) 0], rfl⟩

/-! ## reset, clearMAC -/

/-- `DJTPMS::reset` (also the constructor's body). -/
def reset (_self : Record) : Record :=
  { mac := zeroMac
    macStr := List.replicate 18 '\x00'
    macStrRaw := List.replicate 13 '\x00'
    temperatureRaw := 0
    voltageRaw := 0
    pressureRaw := 0
    flags := 0
    lastUpdateTime := 0
    valid := false
    macSet := false }

/-- `DJTPMS::clearMAC`. -/
def clearMAC (self : Record) : Record :=
  { self with
    mac := zeroMac
    macStr := List.replicate 18 '\x00'
    macStrRaw := List.replicate 13 '\x00'
    macSet := false }

/-- The record the constructor `DJTPMS::DJTPMS()` leaves: `reset()` applied to
the (indeterminate) members, whose previous values `reset` does not read. -/
def construct : Record :=
  reset
    { mac := zeroMac, temperatureRaw := 0, voltageRaw := 0, pressureRaw := 0, flags := 0,
      lastUpdateTime := 0, valid := false, macSet := false, macStr := [], macStrRaw := [] }

/-! ## Hex codec -/

/-- The test `(c >= '0' && c <= '9') || (c >= 'A' && c <= 'F') || (c >= 'a' && c <= 'f')`
that all four scanning loops apply. -/
def isHexDigit (c : Char) : Bool :=
  (decide ('0' ≤ c) && decide (c ≤ '9')) || (decide ('A' ≤ c) && decide (c ≤ 'F')) ||
    (decide ('a' ≤ c) && decide (c ≤ 'f'))

/-- `DJTPMS::hexToNibble`. -/
def hexToNibble (c : Char) : Nat :=
  if '0' ≤ c ∧ c ≤ '9' then c.toNat - '0'.toNat
  else if 'A' ≤ c ∧ c ≤ 'F' then c.toNat - 'A'.toNat + 10
  else if 'a' ≤ c ∧ c ≤ 'f' then c.toNat - 'a'.toNat + 10
  else 0

/-- The counting loop `for (p = s; *p; p++) if (hex *p) count++`, started with
the counter at `n`. -/
def countHexDigits : List Char → Nat → Nat
  | [], n => n
  | c :: p, n =>
    if c = '\x00' then n
    else countHexDigits p (if isHexDigit c then n + 1 else n)

/-- Local variables of the pairing loop together with its destination array. -/
structure PairState (n : Nat) where
  byteIdx : Nat
  nibbleCount : Nat
  currentByte : Nat
  buf : Buf n

/-- The pairing loop `for (p = s; *p && byteIdx < limit; p++) { ... }` of
`setMAC(const char*)` (`limit = 6`, destination `mac`) and of
`update(const char*)` (`limit = byteLen`, destination `buffer`); the two loop
bodies are the same text. -/
def hexPairLoop {n : Nat} (limit : Nat) : List Char → PairState n → PairState n
  | [], st => st
  | c :: p, st =>
    if c = '\x00' then st
    else if ¬ st.byteIdx < limit then st
    else if isHexDigit c then
      let currentByte := ((st.currentByte <<< 4) ||| hexToNibble c) % 256
      let nibbleCount := (st.nibbleCount + 1) % 256
      if nibbleCount = 2 then
        hexPairLoop limit p
          { byteIdx := st.byteIdx + 1
            nibbleCount := 0
            currentByte := 0
            buf := st.buf.write st.byteIdx (Fin.ofNat currentByte) }
      else
        hexPairLoop limit p { st with currentByte := currentByte, nibbleCount := nibbleCount }
    else hexPairLoop limit p st

/-- One `%02X` conversion digit: the uppercase hexadecimal digit of `d < 16`. -/
def hexChar (d : Nat) : Char :=
  if d < 10 then Char.ofNat ('0'.toNat + d) else Char.ofNat ('A'.toNat + (d - 10))

/-- The two characters `%02X` prints for a byte. -/
def hex02X (b : Byte) : List Char := [hexChar (b.val / 16), hexChar (b.val % 16)]

/-- `DJTPMS::updateMacStrings`: both `sprintf` calls, each filling its array up
to and including the terminator. -/
def updateMacStrings (self : Record) : Record :=
  let m (i : Nat) : Byte := self.mac.val.getD i 0
  { self with
    macStr :=
      hex02X (m 0) ++ ':' :: hex02X (m 1) ++ ':' :: hex02X (m 2) ++ ':' :: hex02X (m 3) ++
        ':' :: hex02X (m 4) ++ ':' :: hex02X (m 5) ++ ['\x00']
    macStrRaw :=
      hex02X (m 0) ++ hex02X (m 1) ++ hex02X (m 2) ++ hex02X (m 3) ++ hex02X (m 4) ++
        hex02X (m 5) ++ ['\x00'] }

/-! ## setMAC -/

/-- `DJTPMS::setMAC(const char*)`; `none` is the null pointer. -/
def setMAC (self : Record) (macString : Option (List Char)) : Bool × Record :=
  match macString with
  | none => (false, clearMAC self)
  | some s =>
    if s.head? = none ∨ s.head? = some '\x00' then (false, clearMAC self)
    else
      let hexCount := countHexDigits s 0
      if hexCount ≠ 12 then (false, self)
      else
        let st := hexPairLoop 6 s
          { byteIdx := 0, nibbleCount := 0, currentByte := 0, buf := self.mac }
        (true, { updateMacStrings { self with mac := st.buf } with macSet := true })

/-- `DJTPMS::setMAC(const std::string&)`: forwards `c_str()`. -/
def setMACString (self : Record) (macString : List Char) : Bool × Record :=
  setMAC self (some macString)

/-- `DJTPMS::setMAC(const uint8_t*)`: `macBytes` points to six bytes. -/
def setMACBytes (self : Record) (macBytes : Buf 6) : Record :=
  { updateMacStrings { self with mac := macBytes } with macSet := true }

/-! ## update -/

/-- `DJTPMS::update(const uint8_t* data, size_t length)` on the packet `data`
(`length = data.length`), with `now` the value `millis()` returns. The two
`memcmp` rejections, `if (macSet) { .. } else if (valid) { .. }`, are written as
two guards in a row: `macSet` with a mismatch, and `!macSet && valid` with a
mismatch. -/
def update (self : Record) (data : List Byte) (now : Nat) : Bool × Record :=
  let length := data.length
  if length < TPMS_MIN_PACKET_LENGTH then (false, self)
  else if self.macSet = true ∧ readMac data (length - 6) ≠ self.mac then (false, self)
  else if self.macSet = false ∧ self.valid = true ∧ readMac data (length - 6) ≠ self.mac then
    (false, self)
  else
    let offset := length - TPMS_MIN_PACKET_LENGTH
    let s1 : Record :=
      { self with
        voltageRaw := data.getD (offset + 0) 0
        temperatureRaw := data.getD (offset + 1) 0
        pressureRaw :=
          (((data.getD (offset + 2) 0).val <<< 8) ||| (data.getD (offset + 3) 0).val) % 65536 }
    let s2 : Record :=
      if s1.macSet = false then updateMacStrings { s1 with mac := readMac data (length - 6) }
      else s1
    (true, { s2 with lastUpdateTime := now, valid := true })

/-- What a call `malloc(size)` answers: `none` for the null pointer, otherwise the
`size` cells handed out, with whatever contents they happen to hold. -/
abbrev Allocator := (size : Nat) → Option (Buf size)

/-- `DJTPMS::update(const char*)`, with `malloc` the allocator the call meets: on a
null pointer the function returns false (`if (!buffer) return false;`), otherwise
the pairing loop fills the cells handed out and `update(buffer, byteLen)` decides. -/
def updateText (malloc : Allocator) (self : Record) (hexString : List Char) (now : Nat) :
    Bool × Record :=
  let hexLen := countHexDigits hexString 0
  if hexLen < TPMS_MIN_PACKET_LENGTH * 2 then (false, self)
  else
    let byteLen := hexLen / 2
    match malloc byteLen with
    | none => (false, self)
    | some buffer =>
      let st := hexPairLoop byteLen hexString
        { byteIdx := 0, nibbleCount := 0, currentByte := 0, buf := buffer }
      update self st.buf.val now

/-- `DJTPMS::update(const std::string&)`: forwards `c_str()`. -/
def updateString (malloc : Allocator) (self : Record) (hexString : List Char) (now : Nat) :
    Bool × Record :=
  updateText malloc self hexString now

/-! ## Accessors -/

/-- `DJTPMS::getPressureKPA`, as the integer whose conversion `(float)` the C++
function returns; the conversion is exact, the integer being below `2 ^ 24`.
The comparison and the subtraction are done in `int` after promotion. -/
def getPressureKPA (self : Record) : Int :=
  if self.pressureRaw ≤ PRESSURE_OFFSET then 0
  else (self.pressureRaw : Int) - (PRESSURE_OFFSET : Int)

/-- The constant `ULONG_MAX` of `<climits>` for an `unsigned long` of `w` bits. -/
def ULONG_MAX (w : Nat) : Nat := 2 ^ w - 1

/-- `DJTPMS::getTimeSinceUpdate`, for an `unsigned long` of `w` bits and `now` the
value `millis()` returns; the unsigned subtraction is taken modulo `2 ^ w`. -/
def getTimeSinceUpdate (w : Nat) (self : Record) (now : Nat) : Nat :=
  if self.lastUpdateTime = 0 then ULONG_MAX w
  else (((now : Int) - (self.lastUpdateTime : Int)) % ((2 : Int) ^ w)).toNat

/-- `DJTPMS::isStale(timeoutMs)`; the header gives `timeoutMs` the default 60000. -/
def isStale (w : Nat) (self : Record) (timeoutMs : Nat) (now : Nat) : Bool :=
  if self.valid = false ∨ self.lastUpdateTime = 0 then true
  else decide (getTimeSinceUpdate w self now > timeoutMs)

/-! ## The pairing loop with its stores checked and listed -/

/-- The store `dest[i] = v` with the array bound checked: `none` when cell `i` is
outside the `n` cells of the array (undefined behaviour in C++). -/
def Buf.store {n : Nat} (b : Buf n) (i : Nat) (v : Byte) : Option (Buf n) :=
  if i < n then some (b.write i v) else none

/-- The pairing loop run with every store `dest[byteIdx++] = currentByte` checked
against the array bound and listed: `none` as soon as a store falls outside the
array, otherwise the state the loop ends in and its stores in order, each as the
pair of the cell index and the byte stored. -/
def hexPairRun {n : Nat} (limit : Nat) :
    List Char → PairState n → Option (PairState n × List (Nat × Byte))
  | [], st => some (st, [])
  | c :: p, st =>
    if c = '\x00' then some (st, [])
    else if ¬ st.byteIdx < limit then some (st, [])
    else if isHexDigit c then
      let currentByte := ((st.currentByte <<< 4) ||| hexToNibble c) % 256
      let nibbleCount := (st.nibbleCount + 1) % 256
      if nibbleCount = 2 then
        match st.buf.store st.byteIdx (Fin.ofNat currentByte) with
        | none => none
        | some buf =>
          (hexPairRun limit p
              { byteIdx := st.byteIdx + 1, nibbleCount := 0, currentByte := 0, buf := buf }).map
            (fun r => (r.1, (st.byteIdx, Fin.ofNat currentByte) :: r.2))
      else
        hexPairRun limit p { st with currentByte := currentByte, nibbleCount := nibbleCount }
    else hexPairRun limit p st

/-- `DJTPMS::update(const char*)` run with the stores of its pairing loop checked
and listed: `none` if a store falls outside `buffer`, otherwise what the function
returns and leaves, and the stores made into `buffer`. -/
def updateTextRun (malloc : Allocator) (self : Record) (hexString : List Char) (now : Nat) :
    Option ((Bool × Record) × List (Nat × Byte)) :=
  let hexLen := countHexDigits hexString 0
  if hexLen < TPMS_MIN_PACKET_LENGTH * 2 then some ((false, self), [])
  else
    let byteLen := hexLen / 2
    match malloc byteLen with
    | none => some ((false, self), [])
    | some buffer =>
      match hexPairRun byteLen hexString
          { byteIdx := 0, nibbleCount := 0, currentByte := 0, buf := buffer } with
      | none => none
      | some (st, stores) => some (update self st.buf.val now, stores)

/-- `DJTPMS::setMAC(const char*)` run with the stores of its pairing loop checked
and listed: `none` if a store falls outside `mac`, otherwise what the function
returns and leaves, and the stores made into `mac`. -/
def setMACRun (self : Record) (macString : Option (List Char)) :
    Option ((Bool × Record) × List (Nat × Byte)) :=
  match macString with
  | none => some ((false, clearMAC self), [])
  | some s =>
    if s.head? = none ∨ s.head? = some '\x00' then some ((false, clearMAC self), [])
    else
      let hexCount := countHexDigits s 0
      if hexCount ≠ 12 then some ((false, self), [])
      else
        match hexPairRun 6 s
            { byteIdx := 0, nibbleCount := 0, currentByte := 0, buf := self.mac } with
        | none => none
        | some (st, stores) =>
          some ((true, { updateMacStrings { self with mac := st.buf } with macSet := true }),
            stores)

/-! ## The stores of the pairing loop by themselves -/

/-- The stores `dest[byteIdx++] = currentByte` the pairing loop executes, in
order, each as the pair of the cell index and the byte stored: the loop of
`hexPairLoop` with the store recorded instead of performed. -/
def hexPairWrites {n : Nat} (limit : Nat) : List Char → PairState n → List (Nat × Byte)
  | [], _ => []
  | c :: p, st =>
    if c = '\x00' then []
    else if ¬ st.byteIdx < limit then []
    else if isHexDigit c then
      let currentByte := ((st.currentByte <<< 4) ||| hexToNibble c) % 256
      let nibbleCount := (st.nibbleCount + 1) % 256
      if nibbleCount = 2 then
        (st.byteIdx, Fin.ofNat currentByte) ::
          hexPairWrites limit p
            { byteIdx := st.byteIdx + 1
              nibbleCount := 0
              currentByte := 0
              buf := st.buf.write st.byteIdx (Fin.ofNat currentByte) }
      else
        hexPairWrites limit p { st with currentByte := currentByte, nibbleCount := nibbleCount }
    else hexPairWrites limit p st

/-! ## Calls on a record -/

/-- One call of a public mutating member function, with its arguments. -/
inductive Call where
  | reset
  | clearMAC
  | setMACText (macString : Option (List Char))
  | setMACBytes (macBytes : Buf 6)
  | update (data : List Byte) (now : Nat)
  | updateText (malloc : Allocator) (hexString : List Char) (now : Nat)

/-- The record a call leaves. -/
def Call.next (c : Call) (self : Record) : Record :=
  match c with
  | .reset => DJTPMS.reset self
  | .clearMAC => DJTPMS.clearMAC self
  | .setMACText macString => (DJTPMS.setMAC self macString).2
  | .setMACBytes macBytes => DJTPMS.setMACBytes self macBytes
  | .update data now => (DJTPMS.update self data now).2
  | .updateText malloc hexString now => (DJTPMS.updateText malloc self hexString now).2

/-- The `bool` a call returns, `none` for the `void` functions. -/
def Call.result (c : Call) (self : Record) : Option Bool :=
  match c with
  | .reset => none
  | .clearMAC => none
  | .setMACText macString => some (DJTPMS.setMAC self macString).1
  | .setMACBytes _ => none
  | .update data now => some (DJTPMS.update self data now).1
  | .updateText malloc hexString now => some (DJTPMS.updateText malloc self hexString now).1

/-- The record after a sequence of calls, made in order. -/
def runCalls (self : Record) (calls : List Call) : Record :=
  calls.foldl (fun r c => c.next r) self

/-- Whether a call is one of the two `update` overloads. -/
def Call.isUpdate : Call → Bool
  | .update _ _ => true
  | .updateText _ _ _ => true
  | _ => false

/-- Whether every call of a sequence, made in order from `self`, is an `update`
that returns false. -/
def allFailedUpdates (self : Record) : List Call → Bool
  | [] => true
  | c :: rest =>
    c.isUpdate && (c.result self == some false) && allFailedUpdates (c.next self) rest

/-! ## Vocabulary of the specification -/

/-- The text of a C string: the characters in front of the first `'\0'`. -/
def cstr (s : List Char) : List Char := s.takeWhile (fun c => c != '\x00')

/-- The hex digits of a string, in encountered order, all other characters
dropped. -/
def hexDigits (s : List Char) : List Char := (cstr s).filter isHexDigit

/-- The value of a hex digit as the specification understands it (`0-9`, `A-F`,
`a-f`); written as a table, to be compared with `hexToNibble`. -/
def hexValue : Char → Nat
  | '0' => 0 | '1' => 1 | '2' => 2 | '3' => 3 | '4' => 4
  | '5' => 5 | '6' => 6 | '7' => 7 | '8' => 8 | '9' => 9
  | 'A' => 10 | 'B' => 11 | 'C' => 12 | 'D' => 13 | 'E' => 14 | 'F' => 15
  | 'a' => 10 | 'b' => 11 | 'c' => 12 | 'd' => 13 | 'e' => 14 | 'f' => 15
  | _ => 0

/-- The bytes the specification forms from a digit sequence: digits taken two at
a time, most significant nibble first, a trailing unpaired digit dropped. -/
def pairBytes : List Char → List Byte
  | a :: b :: rest => Fin.ofNat (16 * hexValue a + hexValue b) :: pairBytes rest
  | _ => []

/-- The last six bytes of a packet. -/
def lastSix (data : List Byte) : List Byte := data.drop (data.length - 6)

/-- The uppercase hexadecimal digit of a value below 16, read off the digit
string. -/
def upperHexDigit (d : Nat) : Char := "0123456789ABCDEF".toList.getD d '?'

/-- A byte rendered as two uppercase hex digits, zero-padded. -/
def renderByte (b : Byte) : List Char := [upperHexDigit (b.val / 16), upperHexDigit (b.val % 16)]

/-- The colon-separated rendering of a byte sequence, `XX:XX:..:XX`. -/
def colonText (bytes : List Byte) : List Char := [':'].intercalate (bytes.map renderByte)

/-- The compact rendering of a byte sequence, `XXXX..XX`. -/
def compactText (bytes : List Byte) : List Char := (bytes.map renderByte).flatten

/-- The formatted strings agree with `mac`: they are its two renderings, or `mac`
is all zero and both strings are empty. -/
def InSync (self : Record) : Prop :=
  (cstr self.macStr = colonText self.mac.val ∧ cstr self.macStrRaw = compactText self.mac.val) ∨
    (self.mac.val = List.replicate 6 0 ∧ cstr self.macStr = [] ∧ cstr self.macStrRaw = [])

/-- The same agreement stated on the whole character arrays: the renderings
followed by the terminator, or the arrays as `memset` leaves them. -/
def ArraysInSync (self : Record) : Prop :=
  (self.macStr = colonText self.mac.val ++ ['\x00'] ∧
      self.macStrRaw = compactText self.mac.val ++ ['\x00']) ∨
    (self.mac = zeroMac ∧ self.macStr = List.replicate 18 '\x00' ∧
      self.macStrRaw = List.replicate 13 '\x00')

/-- The true elapsed time can be read from two clock readings: `stored` and `now`
are the `w`-bit clock values at the true times `t0` and `t1`, no more than
`2 ^ w - 1` apart. -/
def ClockReadings (w t0 t1 stored now : Nat) : Prop :=
  t0 ≤ t1 ∧ t1 - t0 < 2 ^ w ∧ stored = t0 % 2 ^ w ∧ now = t1 % 2 ^ w

/-! ## Sample inputs -/

/-- A 12-byte packet: 3.0 V, 25 degrees, raw pressure 300, sensor AA:BB:CC:DD:EE:FF. -/
def samplePacket : List Byte := [30, 25, 1, 44, 0, 0, 0xAA, 0xBB, 0xCC, 0xDD, 0xEE, 0xFF]

/-- A 12-byte packet of another sensor, 01:02:03:04:05:06. -/
def otherPacket : List Byte := [31, 26, 1, 45, 0, 0, 1, 2, 3, 4, 5, 6]

/-- The record after construction and one decoded `samplePacket` at clock 1000. -/
def learnedRecord : Record := (update construct samplePacket 1000).2

/-- The record after construction and `setMAC` on the bytes 01:02:03:04:05:06. -/
def boundRecord : Record := setMACBytes construct ⟨[1, 2, 3, 4, 5, 6], rfl⟩

/-- The bytes of `samplePacket` written as hex text with separators and mixed case. -/
def sampleText : List Char := "1e 19 01 2C 00 00 aa:BB:cc:DD:ee:FF".toList

/-- A MAC text with separators. -/
def macTextColons : List Char := "AA:BB:CC:DD:EE:FF".toList

/-- The same MAC without separators and in lower case. -/
def macTextPlain : List Char := "aabbccddeeff".toList

/-- A text with only four hex digits. -/
def macTextShort : List Char := "12:34".toList

/-- An allocator that always hands out cells, each holding `0xCD`. -/
def junkAlloc : Allocator := fun size => some ⟨List.replicate size 0xCD, List.length_replicate _ _⟩

/-- An allocator that is out of memory: every `malloc` answers the null pointer. -/
def nullAlloc : Allocator := fun _ => none

/-! ## Auxiliary facts -/

theorem getElem?_eq_some_getD (l : List Byte) (i : Nat) (h : i < l.length) :
    l[i]? = some (l.getD i 0) := by
  simp [List.getD_eq_getElem?_getD, List.getElem?_eq_getElem h]

theorem shiftLeft_or_bytes (a b : Byte) :
    ((a.val <<< 8) ||| b.val) % 65536 = a.val * 256 + b.val := by
  have ha := a.isLt
  have hb := b.isLt
  have h := Nat.mul_add_lt_is_or (show b.val < 2 ^ 8 by omega) a.val
  rw [Nat.shiftLeft_eq, Nat.mul_comm a.val (2 ^ 8), ← h]
  omega

theorem readMac_val_eq_drop (data : List Byte) (off : Nat) (h : off + 6 = data.length) :
    (readMac data off).val = data.drop off := by
  apply List.ext_getElem?
  intro i
  simp only [readMac, List.getElem?_drop]
  rcases i with _ | _ | _ | _ | _ | _ | i
  all_goals first
    | (simp only [List.getElem?_cons_zero, List.getElem?_cons_succ, Nat.add_zero]
       rw [getElem?_eq_some_getD _ _ (by omega)])
    | (simp only [List.getElem?_cons_succ, List.getElem?_nil]
       symm
       apply List.getElem?_eq_none
       omega)

theorem readMac_val_eq_lastSix (data : List Byte) (h : 6 ≤ data.length) :
    (readMac data (data.length - 6)).val = lastSix data :=
  readMac_val_eq_drop data _ (by omega)

theorem readMac_append (q p : List Byte) (k : Nat) :
    readMac (q ++ p) (q.length + k) = readMac p k := by
  apply Subtype.ext
  simp only [readMac]
  have e : ∀ j, (q ++ p).getD (q.length + k + j) 0 = p.getD (k + j) 0 := by
    intro j
    rw [List.getD_append_right _ _ _ _ (by omega)]
    congr 1
    omega
  have e0 := e 0
  simp only [Nat.add_zero] at e0
  rw [e0, e 1, e 2, e 3, e 4, e 5]

theorem hexToNibble_table :
    ∀ k, k < 128 →
      hexToNibble (Char.ofNat k) = hexValue (Char.ofNat k) ∧ hexValue (Char.ofNat k) < 16 := by
  decide

theorem toNat_lt_of_isHexDigit (c : Char) (h : isHexDigit c = true) : c.toNat < 128 := by
  simp only [isHexDigit, Bool.or_eq_true, Bool.and_eq_true, decide_eq_true_eq, Char.le_def] at h
  rcases h with (⟨_, h⟩ | ⟨_, h⟩) | ⟨_, h⟩
  · have h2 : c.toNat ≤ 57 := h
    omega
  · have h2 : c.toNat ≤ 70 := h
    omega
  · have h2 : c.toNat ≤ 102 := h
    omega

/-- On hex digits the code's `hexToNibble` is the specification's digit value. -/
theorem hexToNibble_eq_hexValue (c : Char) (h : isHexDigit c = true) :
    hexToNibble c = hexValue c ∧ hexValue c < 16 := by
  have := hexToNibble_table c.toNat (toNat_lt_of_isHexDigit c h)
  rwa [Char.ofNat_toNat] at this

theorem isHexDigit_ne_nul (c : Char) (h : isHexDigit c = true) : c ≠ '\x00' := by
  rintro rfl
  exact absurd h (by decide)

theorem shift_or_nibbles (a b : Nat) (ha : a < 16) (hb : b < 16) :
    ((a <<< 4) ||| b) % 256 = 16 * a + b := by
  have h := Nat.mul_add_lt_is_or (show b < 2 ^ 4 by omega) a
  rw [Nat.shiftLeft_eq, Nat.mul_comm a (2 ^ 4), ← h]
  omega

theorem cstr_cons (c : Char) (p : List Char) :
    cstr (c :: p) = if c = '\x00' then [] else c :: cstr p := by
  by_cases h : c = '\x00' <;> simp [cstr, List.takeWhile_cons, h]

theorem hexDigits_nil : hexDigits [] = [] := rfl

theorem hexDigits_cons_nul (p : List Char) : hexDigits ('\x00' :: p) = [] := by
  simp [hexDigits, cstr_cons]

theorem hexDigits_cons_hex (c : Char) (p : List Char) (h : isHexDigit c = true) :
    hexDigits (c :: p) = c :: hexDigits p := by
  simp [hexDigits, cstr_cons, isHexDigit_ne_nul c h, List.filter_cons, h]

theorem hexDigits_cons_other (c : Char) (p : List Char) (h0 : c ≠ '\x00')
    (h : isHexDigit c = false) : hexDigits (c :: p) = hexDigits p := by
  simp [hexDigits, cstr_cons, h0, List.filter_cons, h]

theorem isHexDigit_of_mem_hexDigits (s : List Char) (c : Char) (h : c ∈ hexDigits s) :
    isHexDigit c = true := by
  simp only [hexDigits, List.mem_filter] at h
  exact h.2

/-- The counting loop counts the hex digits of the string. -/
theorem countHexDigits_eq (s : List Char) (n : Nat) :
    countHexDigits s n = n + (hexDigits s).length := by
  induction s generalizing n with
  | nil => simp [countHexDigits, hexDigits_nil]
  | cons c p ih =>
    by_cases h0 : c = '\x00'
    · subst h0
      simp [countHexDigits, hexDigits_cons_nul]
    · cases hc : isHexDigit c
      · simp [countHexDigits, h0, hc, ih, hexDigits_cons_other c p h0 hc]
      · simp [countHexDigits, h0, hc, ih, hexDigits_cons_hex c p hc]
        omega

theorem pairBytes_length (d : List Char) : (pairBytes d).length = d.length / 2 := by
  induction d using pairBytes.induct with
  | case1 a b rest ih =>
    simp only [pairBytes, List.length_cons, ih]
    omega
  | case2 d h =>
    match d, h with
    | [], _ => rfl
    | [_], _ => simp [pairBytes]
    | a :: b :: rest, h => exact absurd rfl (h a b rest)

theorem hexPairLoop_of_not_lt {n : Nat} (limit : Nat) (l : List Char) (st : PairState n)
    (h : ¬ st.byteIdx < limit) : hexPairLoop limit l st = st := by
  cases l with
  | nil => rfl
  | cons c p => simp [hexPairLoop, h]

/-- The pairing loop sees only the hex digits of the string. -/
theorem hexPairLoop_hexDigits {n : Nat} (limit : Nat) (s : List Char) (st : PairState n) :
    hexPairLoop limit s st = hexPairLoop limit (hexDigits s) st := by
  induction s generalizing st with
  | nil => rfl
  | cons c p ih =>
    by_cases h0 : c = '\x00'
    · subst h0
      rw [hexDigits_cons_nul]
      simp [hexPairLoop]
    · by_cases hl : st.byteIdx < limit
      · cases hc : isHexDigit c
        · rw [hexDigits_cons_other c p h0 hc, ← ih]
          simp [hexPairLoop, h0, hl, hc]
        · rw [hexDigits_cons_hex c p hc]
          simp only [hexPairLoop, h0, hl, hc, if_true, if_false, not_true_eq_false]
          split_ifs <;> exact ih _
      · rw [hexPairLoop_of_not_lt limit _ st hl, hexPairLoop_of_not_lt limit _ st hl]

/-- Two consecutive hex digits met with no pending nibble store one byte. -/
theorem hexPairLoop_pair {n : Nat} (limit : Nat) (a b : Char) (r : List Char)
    (idx : Nat) (buf : Buf n) (ha : isHexDigit a = true) (hb : isHexDigit b = true)
    (hlt : idx < limit) :
    hexPairLoop limit (a :: b :: r) ⟨idx, 0, 0, buf⟩ =
      hexPairLoop limit r ⟨idx + 1, 0, 0, buf.write idx (Fin.ofNat (16 * hexValue a + hexValue b))⟩ := by
  obtain ⟨ea, la⟩ := hexToNibble_eq_hexValue a ha
  obtain ⟨eb, lb⟩ := hexToNibble_eq_hexValue b hb
  have e1 : ((0 <<< 4) ||| hexValue a) % 256 = hexValue a := by
    rw [shift_or_nibbles 0 (hexValue a) (by omega) la]
    omega
  have e2 : ((hexValue a <<< 4) ||| hexValue b) % 256 = 16 * hexValue a + hexValue b :=
    shift_or_nibbles _ _ la lb
  rw [hexPairLoop]
  simp only [isHexDigit_ne_nul a ha, ha, hlt, if_true, if_false, not_true_eq_false, ea, e1]
  rw [if_neg (by decide)]
  rw [hexPairLoop]
  simp only [isHexDigit_ne_nul b hb, hb, hlt, if_true, if_false, not_true_eq_false, eb, e2]

/-- A last unpaired hex digit stores nothing. -/
theorem hexPairLoop_single {n : Nat} (limit : Nat) (a : Char) (idx : Nat) (buf : Buf n) :
    (hexPairLoop limit [a] ⟨idx, 0, 0, buf⟩).buf = buf ∧
      (hexPairLoop limit [a] ⟨idx, 0, 0, buf⟩).byteIdx = idx := by
  rw [hexPairLoop]
  split_ifs <;> simp [hexPairLoop]

theorem set_length_append (pre : List Byte) (y x : Byte) (rest : List Byte) :
    (pre ++ y :: rest).set pre.length x = pre ++ x :: rest := by
  induction pre with
  | nil => rfl
  | cons z pre ih => simp [ih]

/-- On a digit sequence the pairing loop, started at cell `idx` with no pending
nibble, overwrites the cells from `idx` on with the paired bytes. -/
theorem hexPairLoop_digits {n : Nat} (limit : Nat) (hlim : limit = n) (d : List Char)
    (hd : ∀ c ∈ d, isHexDigit c = true) :
    ∀ (idx : Nat) (pre rest : List Byte) (buf : Buf n), idx = pre.length →
      buf.val = pre ++ rest → (pairBytes d).length ≤ rest.length →
      (hexPairLoop limit d ⟨idx, 0, 0, buf⟩).buf.val =
          pre ++ pairBytes d ++ rest.drop (pairBytes d).length ∧
        (hexPairLoop limit d ⟨idx, 0, 0, buf⟩).byteIdx = idx + (pairBytes d).length := by
  induction d using pairBytes.induct with
  | case1 a b r ih =>
    intro idx pre rest buf hidx hbuf hlen
    have ha := hd a (by simp)
    have hb := hd b (by simp)
    simp only [pairBytes, List.length_cons] at hlen ⊢
    obtain ⟨y, rest', rfl⟩ : ∃ y rest', rest = y :: rest' := by
      cases rest with
      | nil => simp at hlen
      | cons y rest' => exact ⟨y, rest', rfl⟩
    have hlt : idx < limit := by
      have h6 := buf.property
      rw [hbuf, List.length_append, List.length_cons] at h6
      omega
    rw [hexPairLoop_pair limit a b r idx buf ha hb hlt]
    have hw : (buf.write idx (Fin.ofNat (16 * hexValue a + hexValue b))).val =
        (pre ++ [Fin.ofNat (16 * hexValue a + hexValue b)]) ++ rest' := by
      simp only [Buf.write, hbuf, hidx, set_length_append, List.append_assoc,
        List.singleton_append]
    have hr := ih (fun c hc => hd c (by simp [hc])) (idx + 1)
      (pre ++ [Fin.ofNat (16 * hexValue a + hexValue b)]) rest'
      (buf.write idx (Fin.ofNat (16 * hexValue a + hexValue b)))
      (by simp [hidx]) hw (by simpa using hlen)
    rw [hr.1, hr.2]
    constructor
    · simp
    · omega
  | case2 d h =>
    intro idx pre rest buf hidx hbuf hlen
    match d, h with
    | [], _ => simp [hexPairLoop, pairBytes, hbuf]
    | [a], _ =>
      have hs := hexPairLoop_single limit a idx buf
      simp [pairBytes, hs.1, hs.2, hbuf]
    | a :: b :: rest, h => exact absurd rfl (h a b rest)

/-- The pairing loop over a string whose hex digits pair into exactly `n` bytes
fills an `n`-cell array with these bytes, whatever the array held before. -/
theorem hexPairLoop_fill {n : Nat} (s : List Char) (buf : Buf n)
    (h : (pairBytes (hexDigits s)).length = n) :
    (hexPairLoop n s ⟨0, 0, 0, buf⟩).buf.val = pairBytes (hexDigits s) := by
  rw [hexPairLoop_hexDigits]
  have hr := hexPairLoop_digits n rfl (hexDigits s) (isHexDigit_of_mem_hexDigits s) 0 []
    buf.val buf rfl rfl (by rw [h, buf.property])
  rw [hr.1]
  have hd : List.drop (pairBytes (hexDigits s)).length buf.val = [] := by
    apply List.drop_eq_nil_of_le
    rw [h, buf.property]
  simp [hd]

/-- The paired bytes, cell by cell: byte `i` is `16 * value(d[2i]) + value(d[2i+1])`. -/
theorem pairBytes_getElem (d : List Char) (hd : ∀ c ∈ d, isHexDigit c = true) :
    ∀ i, i < d.length / 2 →
      ∃ hi lo byte, d[2 * i]? = some hi ∧ d[2 * i + 1]? = some lo ∧
        (pairBytes d)[i]? = some byte ∧ byte.val = 16 * hexValue hi + hexValue lo := by
  induction d using pairBytes.induct with
  | case1 a b r ih =>
    intro i hi
    cases i with
    | zero =>
      refine ⟨a, b, Fin.ofNat (16 * hexValue a + hexValue b), rfl, by simp, by simp [pairBytes],
        ?_⟩
      have la := (hexToNibble_eq_hexValue a (hd a (by simp))).2
      have lb := (hexToNibble_eq_hexValue b (hd b (by simp))).2
      show (16 * hexValue a + hexValue b) % 256 = _
      omega
    | succ j =>
      have hj : j < r.length / 2 := by
        simp only [List.length_cons] at hi
        omega
      obtain ⟨x, y, byte, hx, hy, hb, hv⟩ := ih (fun c hc => hd c (by simp [hc])) j hj
      refine ⟨x, y, byte, ?_, ?_, ?_, hv⟩
      · rw [show 2 * (j + 1) = 2 * j + 1 + 1 by omega]
        simpa using hx
      · rw [show 2 * (j + 1) + 1 = 2 * j + 1 + 1 + 1 by omega]
        simpa using hy
      · simpa [pairBytes] using hb
  | case2 d h =>
    intro i hi
    match d, h with
    | [], _ => simp at hi
    | [_], _ =>
      simp only [List.length_singleton] at hi
      omega
    | a :: b :: rest, h => exact absurd rfl (h a b rest)

/-- The paired bytes depend on the digits only through their values. -/
theorem pairBytes_congr (d : List Char) :
    ∀ d' : List Char, d'.map hexValue = d.map hexValue → pairBytes d' = pairBytes d := by
  induction d using pairBytes.induct with
  | case1 a b r ih =>
    intro d' h
    match d', h with
    | [], h => simp at h
    | [_], h => simp at h
    | a' :: b' :: r', h =>
      simp only [List.map_cons, List.cons.injEq] at h
      simp only [pairBytes, h.1, h.2.1, ih r' h.2.2]
  | case2 d hd =>
    intro d' h
    have hl : d'.length = d.length := by
      have := congrArg List.length h
      simpa using this
    match d, hd, d', hl with
    | [], _, [], _ => rfl
    | [_], _, [_], _ => simp [pairBytes]
    | a :: b :: rest, hd, _, _ => exact absurd rfl (hd a b rest)

theorem cstr_eq_nil_iff (s : List Char) :
    cstr s = [] ↔ (s.head? = none ∨ s.head? = some '\x00') := by
  cases s with
  | nil => simp [cstr]
  | cons c p =>
    rw [cstr_cons]
    by_cases h : c = '\x00' <;> simp [h]

/-- `update(const char*)` with at least 24 hex digits and cells handed out by
`malloc` is `update` on the paired bytes, whatever the cells held. -/
theorem updateText_eq_update (malloc : Allocator) (self : Record) (s : List Char) (now : Nat)
    (h : 24 ≤ (hexDigits s).length) (buffer : Buf (countHexDigits s 0 / 2))
    (hm : malloc (countHexDigits s 0 / 2) = some buffer) :
    updateText malloc self s now = update self (pairBytes (hexDigits s)) now := by
  have hc : countHexDigits s 0 = (hexDigits s).length := by
    rw [countHexDigits_eq]
    omega
  simp only [updateText, TPMS_MIN_PACKET_LENGTH]
  rw [if_neg (by rw [hc]; omega)]
  simp only [hm]
  rw [hexPairLoop_fill s _ (by rw [pairBytes_length, hc])]

/-- `update(const char*)` returns false and changes nothing when `malloc` answers
the null pointer. -/
theorem updateText_alloc_failed (malloc : Allocator) (self : Record) (s : List Char)
    (now : Nat) (hm : malloc (countHexDigits s 0 / 2) = none) :
    updateText malloc self s now = (false, self) := by
  simp only [updateText, hm]
  split_ifs <;> rfl

theorem updateText_short (malloc : Allocator) (self : Record) (s : List Char) (now : Nat)
    (h : (hexDigits s).length < 24) : updateText malloc self s now = (false, self) := by
  have hc : countHexDigits s 0 = (hexDigits s).length := by
    rw [countHexDigits_eq]
    omega
  simp only [updateText, TPMS_MIN_PACKET_LENGTH]
  rw [if_pos (by rw [hc]; omega)]

/-- `setMAC(const char*)` on a non-empty string, by the number of its hex digits. -/
theorem setMAC_text_eq (self : Record) (s : List Char) (hne : cstr s ≠ []) :
    setMAC self (some s) =
      if (hexDigits s).length = 12 then
        (true,
          { updateMacStrings
              { self with
                mac := (hexPairLoop 6 s
                  { byteIdx := 0, nibbleCount := 0, currentByte := 0, buf := self.mac }).buf } with
            macSet := true })
      else (false, self) := by
  have hc : countHexDigits s 0 = (hexDigits s).length := by
    rw [countHexDigits_eq]
    omega
  have hh : ¬ (s.head? = none ∨ s.head? = some '\x00') := fun h =>
    hne ((cstr_eq_nil_iff s).mpr h)
  simp only [setMAC, hc]
  rw [if_neg hh]
  by_cases h12 : (hexDigits s).length = 12 <;> simp [h12]

theorem setMAC_text_empty (self : Record) (s : List Char) (he : cstr s = []) :
    setMAC self (some s) = (false, clearMAC self) := by
  simp only [setMAC]
  rw [if_pos ((cstr_eq_nil_iff s).mp he)]

theorem setMAC_text_mac (self : Record) (s : List Char) (hne : cstr s ≠ [])
    (h12 : (hexDigits s).length = 12) :
    (setMAC self (some s)).1 = true ∧
      (setMAC self (some s)).2.mac.val = pairBytes (hexDigits s) ∧
      (setMAC self (some s)).2.macSet = true := by
  rw [setMAC_text_eq self s hne, if_pos h12]
  refine ⟨rfl, ?_, rfl⟩
  exact hexPairLoop_fill s self.mac (by rw [pairBytes_length, h12])

/-- The packet test `update` applies before it touches the record. -/
theorem update_fst_eq_true_iff (self : Record) (data : List Byte) (now : Nat) :
    (update self data now).1 = true ↔
      12 ≤ data.length ∧
        ((self.macSet = false ∧ self.valid = false) ∨
          readMac data (data.length - 6) = self.mac) := by
  simp only [update, TPMS_MIN_PACKET_LENGTH]
  cases hm : self.macSet <;> cases hv : self.valid <;> split_ifs <;> simp_all

theorem update_eq_of_fst_false (self : Record) (data : List Byte) (now : Nat)
    (h : (update self data now).1 = false) : (update self data now).2 = self := by
  simp only [update] at h ⊢
  split_ifs at h ⊢ <;> simp_all

theorem update_unbound_eq (self : Record) (data : List Byte) (now : Nat)
    (hmac : self.macSet = false) (hvalid : self.valid = false) (hlen : 12 ≤ data.length) :
    update self data now =
      (true,
        { updateMacStrings
            { self with
              voltageRaw := data.getD (data.length - 12) 0
              temperatureRaw := data.getD (data.length - 12 + 1) 0
              pressureRaw :=
                (data.getD (data.length - 12 + 2) 0).val * 256 +
                  (data.getD (data.length - 12 + 3) 0).val
              mac := readMac data (data.length - 6) } with
          lastUpdateTime := now
          valid := true }) := by
  have hl : ¬ data.length < 12 := by omega
  simp [update, TPMS_MIN_PACKET_LENGTH, hmac, hvalid, hl, shiftLeft_or_bytes]

theorem update_append_left (self : Record) (q p : List Byte) (now : Nat)
    (hp : p.length = 12) : update self (q ++ p) now = update self p now := by
  have e : ∀ j, (q ++ p).getD (q.length + j) 0 = p.getD j 0 := by
    intro j
    rw [List.getD_append_right _ _ _ _ (by omega)]
    congr 1
    omega
  have e0 := e 0
  have hm : readMac (q ++ p) (q.length + 6) = readMac p 6 := readMac_append q p 6
  simp only [Nat.add_zero] at e0
  simp only [update, TPMS_MIN_PACKET_LENGTH, List.length_append, hp, Nat.add_sub_cancel,
    show q.length + 12 - 6 = q.length + 6 by omega, show 12 - 6 = 6 by rfl, hm, e, e0,
    Nat.add_zero, Nat.sub_self, Nat.zero_add, show ¬ q.length + 12 < 12 by omega,
    show ¬ 12 < 12 by omega]

/-! ## The byte-packet decoder: claims C1 to C5 and C7 -/

/-- C1: on a record with `macSet = false` and `valid = false`, `update` on a packet
of length `L >= 12` returns true and leaves `voltageRaw = data[L-12]`,
`temperatureRaw = data[L-11]`, `pressureRaw = data[L-10]*256 + data[L-9]`, `mac` equal
to the last six bytes of the packet, `valid = true` and `lastUpdateTime` equal to
the clock reading of the call. -/
theorem update_unbound_decodes (self : Record) (data : List Byte) (now : Nat)
    (hmac : self.macSet = false) (hvalid : self.valid = false) (hlen : 12 ≤ data.length) :
    (update self data now).1 = true ∧
      data[data.length - 12]? = some (update self data now).2.voltageRaw ∧
      data[data.length - 11]? = some (update self data now).2.temperatureRaw ∧
      (∃ hi lo : Byte, data[data.length - 10]? = some hi ∧ data[data.length - 9]? = some lo ∧
        (update self data now).2.pressureRaw = hi.val * 256 + lo.val) ∧
      (update self data now).2.mac.val = lastSix data ∧
      (update self data now).2.valid = true ∧
      (update self data now).2.lastUpdateTime = now := by
  rw [update_unbound_eq self data now hmac hvalid hlen]
  refine ⟨rfl, ?_, ?_, ⟨data.getD (data.length - 12 + 2) 0, data.getD (data.length - 12 + 3) 0,
    ?_, ?_, rfl⟩, ?_, rfl, rfl⟩
  · exact getElem?_eq_some_getD data _ (by omega)
  · rw [show data.length - 11 = data.length - 12 + 1 by omega]
    exact getElem?_eq_some_getD data _ (by omega)
  · rw [show data.length - 10 = data.length - 12 + 2 by omega]
    exact getElem?_eq_some_getD data _ (by omega)
  · rw [show data.length - 9 = data.length - 12 + 3 by omega]
    exact getElem?_eq_some_getD data _ (by omega)
  · exact readMac_val_eq_lastSix data (by omega)

/-- C2: `update(bytes, L)` returns true exactly when `L >= 12` and either no MAC is
bound (`macSet = false` and `valid = false`) or the last six bytes of the packet
equal the stored `mac`. -/
theorem update_accepts_iff (self : Record) (data : List Byte) (now : Nat) :
    (update self data now).1 = true ↔
      12 ≤ data.length ∧
        ((self.macSet = false ∧ self.valid = false) ∨ lastSix data = self.mac.val) := by
  rw [update_fst_eq_true_iff]
  constructor
  · rintro ⟨hl, h⟩
    refine ⟨hl, h.imp id ?_⟩
    intro hm
    rw [← readMac_val_eq_lastSix data (by omega), hm]
  · rintro ⟨hl, h⟩
    refine ⟨hl, h.imp id ?_⟩
    intro hm
    apply Subtype.ext
    rw [readMac_val_eq_lastSix data (by omega), hm]

/-- C3: when `update` returns false (short packet or trailing-MAC mismatch) the
record after the call is the record before it, field for field. -/
theorem update_rejected_unchanged (self : Record) (data : List Byte) (now : Nat)
    (h : (update self data now).1 = false) :
    (update self data now).2 = self ∧
      (update self data now).2.mac = self.mac ∧
      (update self data now).2.macStr = self.macStr ∧
      (update self data now).2.macStrRaw = self.macStrRaw ∧
      (update self data now).2.macSet = self.macSet ∧
      (update self data now).2.voltageRaw = self.voltageRaw ∧
      (update self data now).2.temperatureRaw = self.temperatureRaw ∧
      (update self data now).2.pressureRaw = self.pressureRaw ∧
      (update self data now).2.flags = self.flags ∧
      (update self data now).2.lastUpdateTime = self.lastUpdateTime ∧
      (update self data now).2.valid = self.valid := by
  rw [update_eq_of_fst_false self data now h]
  simp

theorem update_unbound_decodes_witness :
    construct.macSet = false ∧ construct.valid = false ∧ 12 ≤ samplePacket.length ∧
      (update construct samplePacket 1000).1 = true ∧
      (update construct samplePacket 1000).2.mac.val = lastSix samplePacket ∧
      (update construct samplePacket 1000).2.lastUpdateTime = 1000 :=
  have h := update_unbound_decodes construct samplePacket 1000 rfl rfl (by decide)
  ⟨rfl, rfl, by decide, h.1, h.2.2.2.2.1, h.2.2.2.2.2.2⟩

theorem update_rejected_unchanged_witness :
    (update learnedRecord otherPacket 2000).1 = false ∧
      (update learnedRecord otherPacket 2000).2 = learnedRecord :=
  ⟨by decide, (update_rejected_unchanged learnedRecord otherPacket 2000 (by decide)).1⟩

/-- C4: starting from a freshly constructed or reset record, a first packet of
length `>= 12` is accepted and its last six bytes are learned as the MAC; a
second packet of length `>= 12` with different last six bytes is then rejected,
and `mac`, `voltageRaw`, `temperatureRaw` and `pressureRaw` stay as decoded from the
first packet. -/
theorem second_sensor_rejected (start : Record) (p1 p2 : List Byte) (t1 t2 : Nat)
    (hstart : start = construct ∨ ∃ r, start = reset r)
    (h1 : 12 ≤ p1.length) (h2 : 12 ≤ p2.length) (hne : lastSix p2 ≠ lastSix p1) :
    (update start p1 t1).1 = true ∧
      (update start p1 t1).2.mac.val = lastSix p1 ∧
      (update (update start p1 t1).2 p2 t2).1 = false ∧
      (update (update start p1 t1).2 p2 t2).2.mac.val = lastSix p1 ∧
      p1[p1.length - 12]? = some (update (update start p1 t1).2 p2 t2).2.voltageRaw ∧
      p1[p1.length - 11]? = some (update (update start p1 t1).2 p2 t2).2.temperatureRaw ∧
      (∃ hi lo : Byte, p1[p1.length - 10]? = some hi ∧ p1[p1.length - 9]? = some lo ∧
        (update (update start p1 t1).2 p2 t2).2.pressureRaw = hi.val * 256 + lo.val) := by
  have hms : start.macSet = false := by
    rcases hstart with h | ⟨r, h⟩ <;> subst h <;> rfl
  have hvs : start.valid = false := by
    rcases hstart with h | ⟨r, h⟩ <;> subst h <;> rfl
  have hrej : (update (update start p1 t1).2 p2 t2).1 = false := by
    cases hb : (update (update start p1 t1).2 p2 t2).1
    · rfl
    · exfalso
      rw [update_fst_eq_true_iff, update_unbound_eq start p1 t1 hms hvs h1] at hb
      rcases hb with ⟨_, ⟨_, hv⟩ | hm⟩
      · simp at hv
      · apply hne
        have hm2 : (readMac p2 (p2.length - 6)).val = (readMac p1 (p1.length - 6)).val :=
          congrArg Subtype.val hm
        rw [readMac_val_eq_lastSix p2 (by omega), readMac_val_eq_lastSix p1 (by omega)] at hm2
        exact hm2
  rw [update_eq_of_fst_false _ p2 t2 hrej]
  refine ⟨?_, ?_, hrej, ?_⟩
  · rw [update_unbound_eq start p1 t1 hms hvs h1]
  · rw [update_unbound_eq start p1 t1 hms hvs h1]
    exact readMac_val_eq_lastSix p1 (by omega)
  rw [update_unbound_eq start p1 t1 hms hvs h1]
  refine ⟨readMac_val_eq_lastSix p1 (by omega),
    ?_, ?_, ⟨p1.getD (p1.length - 12 + 2) 0, p1.getD (p1.length - 12 + 3) 0, ?_, ?_, rfl⟩⟩
  · exact getElem?_eq_some_getD p1 _ (by omega)
  · rw [show p1.length - 11 = p1.length - 12 + 1 by omega]
    exact getElem?_eq_some_getD p1 _ (by omega)
  · rw [show p1.length - 10 = p1.length - 12 + 2 by omega]
    exact getElem?_eq_some_getD p1 _ (by omega)
  · rw [show p1.length - 9 = p1.length - 12 + 3 by omega]
    exact getElem?_eq_some_getD p1 _ (by omega)

theorem second_sensor_rejected_witness :
    (construct = construct ∨ ∃ r, construct = reset r) ∧
      12 ≤ samplePacket.length ∧ 12 ≤ otherPacket.length ∧
      lastSix otherPacket ≠ lastSix samplePacket ∧
      (update construct samplePacket 1000).1 = true ∧
      (update (update construct samplePacket 1000).2 otherPacket 2000).1 = false ∧
      (update (update construct samplePacket 1000).2 otherPacket 2000).2.mac.val =
        lastSix samplePacket :=
  have h := second_sensor_rejected construct samplePacket otherPacket 1000 2000
    (Or.inl rfl) (by decide) (by decide) (by decide)
  ⟨Or.inl rfl, by decide, by decide, by decide, h.1, h.2.2.1, h.2.2.2.1⟩

/-- C5: on a record with `macSet = true`, `update` on any packet leaves the six `mac`
bytes, both formatted MAC strings and `macSet` as they were, whether it returns
true or false; and it returns false whenever the last six bytes of the packet
differ from the configured `mac`. -/
theorem update_configured_mac_fixed (self : Record) (data : List Byte) (now : Nat)
    (hset : self.macSet = true) :
    (update self data now).2.mac = self.mac ∧
      (update self data now).2.macStr = self.macStr ∧
      (update self data now).2.macStrRaw = self.macStrRaw ∧
      (update self data now).2.macSet = true ∧
      (lastSix data ≠ self.mac.val → (update self data now).1 = false) := by
  refine ⟨?_, ?_, ?_, ?_, ?_⟩
  · simp only [update, hset]; split_ifs <;> simp_all
  · simp only [update, hset]; split_ifs <;> simp_all
  · simp only [update, hset]; split_ifs <;> simp_all
  · simp only [update, hset]; split_ifs <;> simp_all
  · intro hne
    cases hb : (update self data now).1
    · rfl
    · exfalso
      rw [update_fst_eq_true_iff] at hb
      rcases hb with ⟨hl, ⟨hm, _⟩ | hm⟩
      · rw [hset] at hm
        exact Bool.noConfusion hm
      · apply hne
        rw [← readMac_val_eq_lastSix data (by omega), hm]

theorem update_configured_mac_fixed_witness :
    boundRecord.macSet = true ∧
      lastSix samplePacket ≠ boundRecord.mac.val ∧
      (update boundRecord samplePacket 1000).2.mac = boundRecord.mac ∧
      (update boundRecord samplePacket 1000).1 = false ∧
      (update boundRecord otherPacket 1000).1 = true ∧
      (update boundRecord otherPacket 1000).2.mac = boundRecord.mac :=
  have h := update_configured_mac_fixed boundRecord samplePacket 1000 rfl
  ⟨rfl, by decide, h.1, h.2.2.2.2 (by decide), by decide,
    (update_configured_mac_fixed boundRecord otherPacket 1000 rfl).1⟩

/-- C7: for a 12-byte packet `p` and any prefix `q`, `update` on `q` followed by `p`
returns the same result and leaves the same record as `update` on `p` alone at
the same clock reading. -/
theorem update_prefix_ignored (self : Record) (q p : List Byte) (now : Nat)
    (hp : p.length = 12) :
    (update self (q ++ p) now).1 = (update self p now).1 ∧
      (update self (q ++ p) now).2 = (update self p now).2 := by
  rw [update_append_left self q p now hp]
  exact ⟨rfl, rfl⟩

theorem update_prefix_ignored_witness :
    samplePacket.length = 12 ∧
      (update construct ([2, 1, 6, 255] ++ samplePacket) 1000).1 = true ∧
      (update construct ([2, 1, 6, 255] ++ samplePacket) 1000).1 =
        (update construct samplePacket 1000).1 ∧
      (update construct ([2, 1, 6, 255] ++ samplePacket) 1000).2 =
        (update construct samplePacket 1000).2 :=
  have h := update_prefix_ignored construct [2, 1, 6, 255] samplePacket 1000 rfl
  ⟨rfl, by decide, h.1, h.2⟩

/-! ## clearMAC on a record that has decoded a packet: claim C6 -/

/-- C6 (evaluation at the failing input): a record that has decoded `samplePacket`
and then had `clearMAC()` called has `macSet = false`, `valid = true` and an all-zero
`mac`; the next `update`, on the 12-byte packet `otherPacket`, returns false and
learns nothing. -/
theorem clearMAC_after_decode_rejects :
    (clearMAC learnedRecord).macSet = false ∧
      (clearMAC learnedRecord).valid = true ∧
      (clearMAC learnedRecord).mac = zeroMac ∧
      12 ≤ otherPacket.length ∧
      (update (clearMAC learnedRecord) otherPacket 2000).1 = false ∧
      (update (clearMAC learnedRecord) otherPacket 2000).2.mac = zeroMac ∧
      (update (clearMAC learnedRecord) samplePacket 2000).1 = false := by
  decide

/-- After `clearMAC()` on a record with `valid = true`, `update` accepts a packet only
if it is at least 12 bytes long and its last six bytes are all zero. -/
theorem update_after_clearMAC_valid (self : Record) (data : List Byte) (now : Nat)
    (hvalid : self.valid = true) :
    (update (clearMAC self) data now).1 = true ↔
      12 ≤ data.length ∧ lastSix data = List.replicate 6 0 := by
  rw [update_fst_eq_true_iff]
  constructor
  · rintro ⟨hl, ⟨_, hv⟩ | hm⟩
    · simp [clearMAC, hvalid] at hv
    · refine ⟨hl, ?_⟩
      rw [← readMac_val_eq_lastSix data (by omega), hm]
      rfl
  · rintro ⟨hl, hm⟩
    refine ⟨hl, Or.inr ?_⟩
    apply Subtype.ext
    rw [readMac_val_eq_lastSix data (by omega), hm]
    rfl

/-- After `clearMAC()` on a record with `valid = false`, the next `update` with a
packet of length `>= 12` succeeds and learns the last six bytes of the packet. -/
theorem update_after_clearMAC_invalid (self : Record) (data : List Byte) (now : Nat)
    (hvalid : self.valid = false) (hlen : 12 ≤ data.length) :
    (clearMAC self).macSet = false ∧
      (update (clearMAC self) data now).1 = true ∧
      (update (clearMAC self) data now).2.mac.val = lastSix data := by
  rw [update_unbound_eq (clearMAC self) data now rfl hvalid hlen]
  exact ⟨rfl, rfl, readMac_val_eq_lastSix data (by omega)⟩

/-! ## Text input: claims C8 to C10 -/

/-- C8 (counterexample): `sampleText` has 24 hex digits, which pair into
`samplePacket`; when `malloc` answers the null pointer `update(text)` on a fresh
record returns false and changes nothing, whereas `update(bytes, 12)` on the paired
bytes returns true. -/
theorem updateText_alloc_failure_differs :
    24 ≤ (hexDigits sampleText).length ∧
      pairBytes (hexDigits sampleText) = samplePacket ∧
      updateText nullAlloc construct sampleText 1000 = (false, construct) ∧
      (update construct (pairBytes (hexDigits sampleText)) 1000).1 = true ∧
      updateText nullAlloc construct sampleText 1000 ≠
        update construct (pairBytes (hexDigits sampleText)) 1000 := by
  decide

/-- C8 (amended): for a text with `n` hex digits (all other characters skipped),
`update(text)` returns false and changes nothing when `n < 24`; otherwise it asks
`malloc` for `n / 2` bytes, returns false and changes nothing if that fails, and if
it succeeds returns the same result and leaves the same record as
`update(bytes, n / 2)`, where byte `i` is `16 * value(digit 2i) + value(digit 2i+1)` over
the hex digits in encountered order, a trailing unpaired digit being dropped. -/
theorem updateText_refines_update (malloc : Allocator) (self : Record) (s : List Char)
    (now : Nat) :
    ((hexDigits s).length < 24 → updateText malloc self s now = (false, self)) ∧
      (24 ≤ (hexDigits s).length →
        countHexDigits s 0 / 2 = (hexDigits s).length / 2 ∧
        (malloc (countHexDigits s 0 / 2) = none →
          updateText malloc self s now = (false, self)) ∧
        (malloc (countHexDigits s 0 / 2) ≠ none →
          updateText malloc self s now = update self (pairBytes (hexDigits s)) now) ∧
        (pairBytes (hexDigits s)).length = (hexDigits s).length / 2 ∧
        ∀ i, i < (hexDigits s).length / 2 →
          ∃ hi lo byte, (hexDigits s)[2 * i]? = some hi ∧ (hexDigits s)[2 * i + 1]? = some lo ∧
            (pairBytes (hexDigits s))[i]? = some byte ∧
            byte.val = 16 * hexValue hi + hexValue lo) := by
  refine ⟨updateText_short malloc self s now, fun h => ⟨?_, ?_, ?_, pairBytes_length _,
    pairBytes_getElem _ (isHexDigit_of_mem_hexDigits s)⟩⟩
  · rw [countHexDigits_eq]
    simp
  · exact updateText_alloc_failed malloc self s now
  · intro hm
    cases hb : malloc (countHexDigits s 0 / 2) with
    | none => exact absurd hb hm
    | some buffer => exact updateText_eq_update malloc self s now h buffer hb

theorem updateText_refines_update_witness :
    (hexDigits macTextShort).length < 24 ∧
      updateText junkAlloc learnedRecord macTextShort 2000 = (false, learnedRecord) ∧
      24 ≤ (hexDigits sampleText).length ∧
      pairBytes (hexDigits sampleText) = samplePacket ∧
      updateText junkAlloc construct sampleText 1000 = update construct samplePacket 1000 ∧
      updateText nullAlloc learnedRecord sampleText 2000 = (false, learnedRecord) :=
  have hp : pairBytes (hexDigits sampleText) = samplePacket := by decide
  ⟨by decide,
    (updateText_refines_update junkAlloc learnedRecord macTextShort 2000).1 (by decide),
    by decide, hp,
    hp ▸ ((updateText_refines_update junkAlloc construct sampleText 1000).2
      (by decide)).2.2.1 (by simp [junkAlloc]),
    ((updateText_refines_update nullAlloc learnedRecord sampleText 2000).2
      (by decide)).2.1 rfl⟩

/-- C9: for a non-empty string, `setMAC(text)` returns true exactly when the string
has 12 hex digits; then `mac[i] = 16 * value(d[2i]) + value(d[2i+1])` for `i < 6`, with
`d` the hex digits in order, and `macSet = true`. Two strings whose hex digits have
the same values in the same order (separators and letter case apart) therefore
give the same `mac`. -/
theorem setMAC_text_parses (self : Record) (s : List Char) (hne : cstr s ≠ []) :
    ((setMAC self (some s)).1 = true ↔ (hexDigits s).length = 12) ∧
      ((hexDigits s).length = 12 →
        (setMAC self (some s)).2.macSet = true ∧
        (∀ i, i < 6 →
          ∃ hi lo byte, (hexDigits s)[2 * i]? = some hi ∧ (hexDigits s)[2 * i + 1]? = some lo ∧
            (setMAC self (some s)).2.mac.val[i]? = some byte ∧
            byte.val = 16 * hexValue hi + hexValue lo) ∧
        ∀ (other : Record) (s' : List Char), cstr s' ≠ [] →
          (hexDigits s').map hexValue = (hexDigits s).map hexValue →
          (setMAC other (some s')).1 = true ∧
            (setMAC other (some s')).2.mac = (setMAC self (some s)).2.mac) := by
  constructor
  · rw [setMAC_text_eq self s hne]
    by_cases h12 : (hexDigits s).length = 12 <;> simp [h12]
  · intro h12
    obtain ⟨_, hmac, hset⟩ := setMAC_text_mac self s hne h12
    refine ⟨hset, ?_, ?_⟩
    · intro i hi
      rw [hmac]
      exact pairBytes_getElem _ (isHexDigit_of_mem_hexDigits s) i (by rw [h12]; omega)
    · intro other s' hne' hmap
      have h12' : (hexDigits s').length = 12 := by
        have := congrArg List.length hmap
        simpa [h12] using this
      obtain ⟨hres, hmac', _⟩ := setMAC_text_mac other s' hne' h12'
      refine ⟨hres, Subtype.ext ?_⟩
      rw [hmac', hmac]
      exact pairBytes_congr _ _ hmap

theorem setMAC_text_parses_witness :
    cstr macTextColons ≠ [] ∧ (hexDigits macTextColons).length = 12 ∧
      (setMAC construct (some macTextColons)).1 = true ∧
      (setMAC construct (some macTextColons)).2.macSet = true ∧
      (setMAC learnedRecord (some macTextPlain)).2.mac =
        (setMAC construct (some macTextColons)).2.mac ∧
      (setMAC construct (some macTextShort)).1 ≠ true :=
  have h := setMAC_text_parses construct macTextColons (by decide)
  have h12 : (hexDigits macTextColons).length = 12 := by decide
  ⟨by decide, h12, h.1.mpr h12, (h.2 h12).1,
    ((h.2 h12).2.2 learnedRecord macTextPlain (by decide) (by decide)).2,
    fun ht => absurd ((setMAC_text_parses construct macTextShort (by decide)).1.mp ht)
      (by decide)⟩

/-- C10 (counterexample): the empty string has fewer than 12 hex digits, yet
`setMAC("")` on a record bound to 01:02:03:04:05:06 zeroes `mac`, zeroes both MAC
strings and clears `macSet`. -/
theorem setMAC_empty_clears_bound :
    (hexDigits []).length < 12 ∧
      boundRecord.mac.val = [1, 2, 3, 4, 5, 6] ∧ boundRecord.macSet = true ∧
      (setMAC boundRecord (some [])).1 = false ∧
      (setMAC boundRecord (some [])).2.mac.val = [0, 0, 0, 0, 0, 0] ∧
      (setMAC boundRecord (some [])).2.mac ≠ boundRecord.mac ∧
      (setMAC boundRecord (some [])).2.macStr ≠ boundRecord.macStr ∧
      (setMAC boundRecord (some [])).2.macStrRaw ≠ boundRecord.macStrRaw ∧
      (setMAC boundRecord (some [])).2.macSet ≠ boundRecord.macSet := by
  decide

/-- C10 (amended): for a string with fewer than 12 hex digits `setMAC(text)` returns
false; if the string is non-empty the record, and so `mac`, both MAC strings and
`macSet`, is left unchanged; if it is empty the MAC is cleared as by `clearMAC()`. -/
theorem setMAC_short_text (self : Record) (s : List Char) (hlt : (hexDigits s).length < 12) :
    (setMAC self (some s)).1 = false ∧
      (cstr s ≠ [] →
        (setMAC self (some s)).2 = self ∧
        (setMAC self (some s)).2.mac = self.mac ∧
        (setMAC self (some s)).2.macStr = self.macStr ∧
        (setMAC self (some s)).2.macStrRaw = self.macStrRaw ∧
        (setMAC self (some s)).2.macSet = self.macSet) ∧
      (cstr s = [] →
        (setMAC self (some s)).2 = clearMAC self ∧
        (setMAC self (some s)).2.mac = zeroMac ∧
        (setMAC self (some s)).2.macStr = List.replicate 18 '\x00' ∧
        (setMAC self (some s)).2.macStrRaw = List.replicate 13 '\x00' ∧
        (setMAC self (some s)).2.macSet = false) := by
  have hcase : ∀ hne : cstr s ≠ [], setMAC self (some s) = (false, self) := by
    intro hne
    rw [setMAC_text_eq self s hne, if_neg (by omega)]
  refine ⟨?_, ?_, ?_⟩
  · by_cases he : cstr s = []
    · rw [setMAC_text_empty self s he]
    · rw [hcase he]
  · intro hne
    rw [hcase hne]
    exact ⟨rfl, rfl, rfl, rfl, rfl⟩
  · intro he
    rw [setMAC_text_empty self s he]
    exact ⟨rfl, rfl, rfl, rfl, rfl⟩

theorem setMAC_short_text_witness :
    (hexDigits macTextShort).length < 12 ∧ cstr macTextShort ≠ [] ∧
      (setMAC boundRecord (some macTextShort)).1 = false ∧
      (setMAC boundRecord (some macTextShort)).2.mac = boundRecord.mac ∧
      (setMAC boundRecord (some macTextShort)).2.macSet = true :=
  have h := setMAC_short_text boundRecord macTextShort (by decide)
  ⟨by decide, by decide, h.1, (h.2.1 (by decide)).2.1, (h.2.1 (by decide)).2.2.2.2⟩

/-! ## Formatted MAC strings: claim C11 -/

theorem hexChar_table : ∀ d, d < 16 → hexChar d = upperHexDigit d ∧ hexChar d ≠ '\x00' := by
  decide

theorem hex02X_eq_renderByte (b : Byte) : hex02X b = renderByte b := by
  have h1 := (hexChar_table (b.val / 16) (by omega)).1
  have h2 := (hexChar_table (b.val % 16) (by omega)).1
  simp only [hex02X, renderByte, h1, h2]

theorem renderByte_ne_nul (b : Byte) (c : Char) (h : c ∈ renderByte b) : c ≠ '\x00' := by
  rw [← hex02X_eq_renderByte] at h
  simp only [hex02X, List.mem_cons, List.mem_singleton, List.not_mem_nil, or_false] at h
  rcases h with h | h
  · rw [h]
    exact (hexChar_table (b.val / 16) (by omega)).2
  · rw [h]
    exact (hexChar_table (b.val % 16) (by omega)).2

theorem buf6_cases (m : Buf 6) : ∃ a b c d e f, m.val = [a, b, c, d, e, f] := by
  obtain ⟨l, hl⟩ := m
  match l, hl with
  | [a, b, c, d, e, f], _ => exact ⟨a, b, c, d, e, f, rfl⟩

theorem cstr_append_nul (l r : List Char) (h : ∀ c ∈ l, c ≠ '\x00') :
    cstr (l ++ '\x00' :: r) = l := by
  induction l with
  | nil => simp [cstr_cons]
  | cons c l ih =>
    rw [List.cons_append, cstr_cons, if_neg (h c (by simp)), ih (fun x hx => h x (by simp [hx]))]

theorem cstr_replicate_nul (k : Nat) : cstr (List.replicate k '\x00') = [] := by
  cases k with
  | zero => rfl
  | succ k => simp [List.replicate_succ, cstr_cons]

theorem colonText_ne_nul (m : Buf 6) (c : Char) (h : c ∈ colonText m.val) : c ≠ '\x00' := by
  obtain ⟨a, b, d, e, f, g, hm⟩ := buf6_cases m
  rw [hm] at h
  simp only [colonText, List.map_cons, List.map_nil, List.intercalate, List.intersperse,
    List.flatten, List.mem_append, List.mem_singleton, List.append_nil] at h
  have hc : (':' : Char) ≠ '\x00' := by decide
  rcases h with h | h | h | h | h | h | h | h | h | h | h
  all_goals first
    | exact renderByte_ne_nul _ c h
    | (rw [h]; exact hc)

theorem compactText_ne_nul (m : Buf 6) (c : Char) (h : c ∈ compactText m.val) : c ≠ '\x00' := by
  simp only [compactText, List.mem_flatten, List.mem_map] at h
  obtain ⟨l, ⟨b, _, rfl⟩, hc⟩ := h
  exact renderByte_ne_nul b c hc

/-- What the two `sprintf` calls leave in the arrays: the renderings of `mac`
followed by the terminator. -/
theorem updateMacStrings_eq (self : Record) :
    updateMacStrings self =
      { self with
        macStr := colonText self.mac.val ++ ['\x00']
        macStrRaw := compactText self.mac.val ++ ['\x00'] } := by
  obtain ⟨a, b, c, d, e, f, hm⟩ := buf6_cases self.mac
  simp [updateMacStrings, hm, hex02X_eq_renderByte, colonText, compactText, List.intercalate,
    List.intersperse, List.flatten]

theorem colonText_length (m : Buf 6) : (colonText m.val).length = 17 := by
  obtain ⟨a, b, c, d, e, f, hm⟩ := buf6_cases m
  simp [hm, colonText, renderByte, List.intercalate, List.intersperse, List.flatten]

theorem compactText_length (m : Buf 6) : (compactText m.val).length = 12 := by
  obtain ⟨a, b, c, d, e, f, hm⟩ := buf6_cases m
  simp [hm, compactText, renderByte, List.flatten]

/-- C11: after `setMAC(bytes b)`, `mac = b`, `macSet = true`, `macStr` is the
17-character string of the six bytes, each as two uppercase hex digits, joined by
`:`, and `macStrRaw` is the 12-character concatenation of the same renderings; the
bytes AA BB CC DD EE FF give `AA:BB:CC:DD:EE:FF` and `AABBCCDDEEFF`. -/
theorem setMACBytes_renders (self : Record) (b : Buf 6) :
    (setMACBytes self b).mac = b ∧
      (setMACBytes self b).macSet = true ∧
      cstr (setMACBytes self b).macStr = colonText b.val ∧
      (colonText b.val).length = 17 ∧
      cstr (setMACBytes self b).macStrRaw = compactText b.val ∧
      (compactText b.val).length = 12 ∧
      (b.val = [0xAA, 0xBB, 0xCC, 0xDD, 0xEE, 0xFF] →
        cstr (setMACBytes self b).macStr = "AA:BB:CC:DD:EE:FF".toList ∧
        cstr (setMACBytes self b).macStrRaw = "AABBCCDDEEFF".toList) := by
  have h1 : cstr (setMACBytes self b).macStr = colonText b.val := by
    simp only [setMACBytes, updateMacStrings_eq]
    exact cstr_append_nul _ _ (colonText_ne_nul b)
  have h2 : cstr (setMACBytes self b).macStrRaw = compactText b.val := by
    simp only [setMACBytes, updateMacStrings_eq]
    exact cstr_append_nul _ _ (compactText_ne_nul b)
  refine ⟨rfl, rfl, h1, colonText_length b, h2, compactText_length b, ?_⟩
  intro hb
  rw [h1, h2, hb]
  exact ⟨by decide, by decide⟩

theorem setMACBytes_renders_witness :
    cstr (setMACBytes learnedRecord ⟨[0xAA, 0xBB, 0xCC, 0xDD, 0xEE, 0xFF], rfl⟩).macStr =
        "AA:BB:CC:DD:EE:FF".toList ∧
      cstr (setMACBytes learnedRecord ⟨[0xAA, 0xBB, 0xCC, 0xDD, 0xEE, 0xFF], rfl⟩).macStrRaw =
        "AABBCCDDEEFF".toList :=
  (setMACBytes_renders learnedRecord ⟨[0xAA, 0xBB, 0xCC, 0xDD, 0xEE, 0xFF], rfl⟩).2.2.2.2.2.2 rfl

/-! ## Pressure and freshness: claims C12 to C15 -/

/-- C12: for `pressureRaw` in `0..65535`, `getPressureKPA()` is `max(0, pressureRaw - 101)`
as an exact integer: 0 for every raw value up to 101, `pressureRaw - 101` above, never
negative (and small enough to be held exactly by a `float`). -/
theorem getPressureKPA_clamped (self : Record) (h : self.pressureRaw ≤ 65535) :
    getPressureKPA self = max 0 ((self.pressureRaw : Int) - 101) ∧
      (self.pressureRaw ≤ 101 → getPressureKPA self = 0) ∧
      (101 < self.pressureRaw → getPressureKPA self = (self.pressureRaw : Int) - 101) ∧
      0 ≤ getPressureKPA self ∧
      getPressureKPA self < 2 ^ 24 := by
  simp only [getPressureKPA, PRESSURE_OFFSET]
  split_ifs with hle
  · refine ⟨?_, fun _ => rfl, fun hgt => ?_, le_refl 0, by norm_num⟩
    · rw [max_eq_left]
      omega
    · omega
  · refine ⟨?_, fun hle2 => absurd hle2 hle, fun _ => by push_cast; rfl, ?_, ?_⟩
    · rw [max_eq_right]
      · push_cast; rfl
      · omega
    · push_cast
      omega
    · push_cast
      omega

theorem getPressureKPA_clamped_witness :
    getPressureKPA { construct with pressureRaw := 101 } = 0 ∧
      getPressureKPA learnedRecord = 199 :=
  ⟨(getPressureKPA_clamped { construct with pressureRaw := 101 } (by decide)).2.1 (by decide),
    (getPressureKPA_clamped learnedRecord (by decide)).2.2.1 (by decide)⟩

theorem update_success_fields (self : Record) (data : List Byte) (now : Nat)
    (h : (update self data now).1 = true) :
    (update self data now).2.valid = true ∧ (update self data now).2.lastUpdateTime = now ∧
      (update self data now).2.flags = self.flags ∧
      (update self data now).2.macSet = self.macSet := by
  simp only [update] at h ⊢
  split_ifs at h ⊢ <;> simp_all [updateMacStrings]

theorem updateText_eq_of_fst_false (malloc : Allocator) (self : Record) (s : List Char)
    (now : Nat) (h : (updateText malloc self s now).1 = false) :
    (updateText malloc self s now).2 = self := by
  simp only [updateText] at h ⊢
  split_ifs at h ⊢
  · rfl
  · cases hm : malloc (countHexDigits s 0 / 2) with
    | none => simp only [hm]
    | some buffer =>
      simp only [hm] at h ⊢
      exact update_eq_of_fst_false self _ now h

theorem isStale_of_not_valid (w : Nat) (self : Record) (timeout now : Nat)
    (h : self.valid = false) : isStale w self timeout now = true := by
  simp [isStale, h]

theorem runCalls_of_allFailedUpdates (calls : List Call) :
    ∀ self : Record, allFailedUpdates self calls = true → runCalls self calls = self := by
  induction calls with
  | nil => intro self _; rfl
  | cons c rest ih =>
    intro self h
    simp only [allFailedUpdates, Bool.and_eq_true, beq_iff_eq] at h
    obtain ⟨⟨hu, hres⟩, hrest⟩ := h
    have hnext : c.next self = self := by
      cases c with
      | update data now =>
        simp only [Call.result, Option.some.injEq] at hres
        exact update_eq_of_fst_false self data now hres
      | updateText malloc str now =>
        simp only [Call.result, Option.some.injEq] at hres
        exact updateText_eq_of_fst_false malloc self str now hres
      | reset => simp [Call.isUpdate] at hu
      | clearMAC => simp [Call.isUpdate] at hu
      | setMACText _ => simp [Call.isUpdate] at hu
      | setMACBytes _ => simp [Call.isUpdate] at hu
    rw [hnext] at hrest
    show runCalls (c.next self) rest = self
    rw [hnext]
    exact ih self hrest

theorem toNat_sub_emod (w now last : Nat) (hl : last ≤ 2 ^ w) :
    (((now : Int) - (last : Int)) % ((2 : Int) ^ w)).toNat = (now + 2 ^ w - last) % 2 ^ w := by
  have hle : last ≤ now + 2 ^ w := le_trans hl (Nat.le_add_left _ _)
  have h : ((now + 2 ^ w - last : Nat) : Int) = (now : Int) - last + (2 : Int) ^ w := by
    rw [Nat.cast_sub hle]
    push_cast
    ring
  have h2 : (((now + 2 ^ w - last) % 2 ^ w : Nat) : Int) =
      ((now : Int) - last) % (2 : Int) ^ w := by
    rw [Int.natCast_mod, h]
    push_cast
    rw [Int.add_emod_self]
  rw [← h2]
  exact Int.toNat_natCast _

theorem elapsed_of_readings (w t0 t1 : Nat) (h01 : t0 ≤ t1) (hlt : t1 - t0 < 2 ^ w) :
    ((((t1 % 2 ^ w : Nat) : Int) - ((t0 % 2 ^ w : Nat) : Int)) % ((2 : Int) ^ w)).toNat =
      t1 - t0 := by
  have hM : ((2 ^ w : Nat) : Int) = (2 : Int) ^ w := by
    push_cast
    rfl
  have h : (((t1 % 2 ^ w : Nat) : Int) - ((t0 % 2 ^ w : Nat) : Int)) % ((2 : Int) ^ w) =
      ((t1 - t0 : Nat) : Int) := by
    rw [Int.natCast_mod, Int.natCast_mod, hM, ← Int.sub_emod, ← Nat.cast_sub h01, ← hM,
      ← Int.natCast_mod, Nat.mod_eq_of_lt hlt]
  rw [h]
  exact Int.toNat_natCast _

/-- C13 (counterexample): `update` on `samplePacket` at clock reading 0 succeeds, and
`isStale` asked right afterwards at the same clock reading returns true, for the
default timeout 60000 and for timeout 0, with a 32-bit and with a 64-bit clock. -/
theorem isStale_after_update_at_zero :
    (update construct samplePacket 0).1 = true ∧
      (update construct samplePacket 0).2.valid = true ∧
      (update construct samplePacket 0).2.lastUpdateTime = 0 ∧
      isStale 32 (update construct samplePacket 0).2 60000 0 = true ∧
      isStale 32 (update construct samplePacket 0).2 0 0 = true ∧
      isStale 64 (update construct samplePacket 0).2 60000 0 = true := by
  decide

/-- When `update` succeeds at clock reading 0 the stored time is the never-updated
value 0, and `isStale` returns true for every timeout. -/
theorem isStale_after_update_at_clock_zero (self : Record) (data : List Byte)
    (h : (update self data 0).1 = true) (w timeout : Nat) :
    isStale w (update self data 0).2 timeout 0 = true := by
  have hl := (update_success_fields self data 0 h).2.1
  simp [isStale, hl]

/-- C13 (amended): when `update` succeeds at a clock reading `t` other than 0,
`isStale(timeout)` asked right afterwards at the same clock reading returns false
for every timeout, the default 60000 included. -/
theorem isStale_after_update (self : Record) (data : List Byte) (t : Nat)
    (h : (update self data t).1 = true) (ht : t ≠ 0) :
    ∀ w timeout : Nat, isStale w (update self data t).2 timeout t = false := by
  obtain ⟨hv, hl, _, _⟩ := update_success_fields self data t h
  intro w timeout
  simp [isStale, getTimeSinceUpdate, hv, hl, ht]

theorem isStale_after_update_witness :
    (update construct samplePacket 1000).1 = true ∧
      isStale 32 (update construct samplePacket 1000).2 60000 1000 = false ∧
      isStale 32 (update construct samplePacket 1000).2 0 1000 = false :=
  have h := isStale_after_update construct samplePacket 1000 (by decide) (by decide)
  ⟨by decide, h 32 60000, h 32 0⟩

/-- C14: on a freshly constructed record and on every record just reset,
`isStale(timeout)` is true for every timeout and every clock reading, and it stays
true after any number of `update` calls that return false. -/
theorem isStale_before_first_decode (start : Record) (calls : List Call)
    (w timeout now : Nat) (hstart : start = construct ∨ ∃ r, start = reset r)
    (hfail : allFailedUpdates start calls = true) :
    isStale w start timeout now = true ∧
      isStale w (runCalls start calls) timeout now = true := by
  have hv : start.valid = false := by
    rcases hstart with h | ⟨r, h⟩ <;> subst h <;> rfl
  rw [runCalls_of_allFailedUpdates calls start hfail]
  exact ⟨isStale_of_not_valid w start timeout now hv, isStale_of_not_valid w start timeout now hv⟩

theorem isStale_before_first_decode_witness :
    allFailedUpdates (reset learnedRecord)
        [Call.update [1, 2, 3] 5, Call.updateText junkAlloc macTextShort 7] = true ∧
      isStale 32 (reset learnedRecord) 60000 2000 = true ∧
      isStale 32
        (runCalls (reset learnedRecord) [Call.update [1, 2, 3] 5, Call.updateText junkAlloc macTextShort 7])
        60000 2000 = true :=
  have h := isStale_before_first_decode (reset learnedRecord)
    [Call.update [1, 2, 3] 5, Call.updateText junkAlloc macTextShort 7] 32 60000 2000
    (Or.inr ⟨learnedRecord, rfl⟩) (by decide)
  ⟨by decide, h.1, h.2⟩

/-- C15: for a clock reading `now` and a stored `w`-bit `lastUpdateTime`,
`getTimeSinceUpdate()` is `2 ^ w - 1` when `lastUpdateTime = 0` and otherwise
`(now - lastUpdateTime) mod 2 ^ w`; when the two are the clock values at true times
`t0 <= t1` less than `2 ^ w` apart, that is the true elapsed time `t1 - t0`, whether or
not the clock wrapped in between. -/
theorem getTimeSinceUpdate_wraps (w : Nat) (self : Record) (now : Nat)
    (hlast : self.lastUpdateTime < 2 ^ w) :
    (self.lastUpdateTime = 0 → getTimeSinceUpdate w self now = 2 ^ w - 1) ∧
      (self.lastUpdateTime ≠ 0 →
        getTimeSinceUpdate w self now = (now + 2 ^ w - self.lastUpdateTime) % 2 ^ w ∧
        getTimeSinceUpdate w self now < 2 ^ w ∧
        ∀ t0 t1 : Nat, ClockReadings w t0 t1 self.lastUpdateTime now →
          getTimeSinceUpdate w self now = t1 - t0) := by
  constructor
  · intro h0
    simp [getTimeSinceUpdate, h0, ULONG_MAX]
  · intro hne
    have he : getTimeSinceUpdate w self now =
        (((now : Int) - (self.lastUpdateTime : Int)) % ((2 : Int) ^ w)).toNat := by
      simp [getTimeSinceUpdate, hne]
    refine ⟨?_, ?_, ?_⟩
    · rw [he, toNat_sub_emod w now _ (le_of_lt hlast)]
    · rw [he, toNat_sub_emod w now _ (le_of_lt hlast)]
      exact Nat.mod_lt _ (Nat.pos_of_ne_zero (by positivity))
    · rintro t0 t1 ⟨h01, hlt, hs, hn⟩
      rw [he, hs, hn]
      exact elapsed_of_readings w t0 t1 h01 hlt

theorem getTimeSinceUpdate_wraps_witness :
    (4294967290 : Nat) < 2 ^ 32 ∧
      ClockReadings 32 4294967290 4294967301 4294967290 5 ∧
      getTimeSinceUpdate 32 { construct with lastUpdateTime := 4294967290 } 5 = 11 ∧
      getTimeSinceUpdate 32 construct 5 = 4294967295 :=
  have hc : ClockReadings 32 4294967290 4294967301 4294967290 5 := by
    refine ⟨by decide, by decide, by decide, by decide⟩
  have h := getTimeSinceUpdate_wraps 32 { construct with lastUpdateTime := 4294967290 } 5
    (by decide)
  ⟨by decide, hc, ((h.2 (by decide)).2.2 4294967290 4294967301 hc),
    (getTimeSinceUpdate_wraps 32 construct 5 (by decide)).1 rfl⟩

/-! ## The valid flag and the formatted strings over call sequences: claims C16 and C17 -/

theorem setMAC_frame (self : Record) (macString : Option (List Char)) :
    (setMAC self macString).2.valid = self.valid ∧
      (setMAC self macString).2.flags = self.flags ∧
      (setMAC self macString).2.lastUpdateTime = self.lastUpdateTime := by
  cases macString with
  | none => exact ⟨rfl, rfl, rfl⟩
  | some s =>
    simp only [setMAC]
    split_ifs <;> exact ⟨rfl, rfl, rfl⟩

theorem update_valid_iff (self : Record) (data : List Byte) (now : Nat) :
    (update self data now).2.valid = true ↔
      (self.valid = true ∨ (update self data now).1 = true) := by
  cases hb : (update self data now).1
  · rw [update_eq_of_fst_false self data now hb]
    simp
  · simp [(update_success_fields self data now hb).1]

theorem updateText_valid_iff (malloc : Allocator) (self : Record) (s : List Char)
    (now : Nat) :
    (updateText malloc self s now).2.valid = true ↔
      (self.valid = true ∨ (updateText malloc self s now).1 = true) := by
  simp only [updateText]
  split_ifs
  · simp
  · cases hm : malloc (countHexDigits s 0 / 2) with
    | none => simp
    | some buffer => exact update_valid_iff self _ now

/-- C16: `valid` goes from false to true only in a call of `update` that returns
true, and only `reset()` takes it from true to false: `setMAC` (text or bytes,
whatever it returns), `clearMAC` and `update` (whatever it returns) leave a true
`valid` true; no clock reading enters except as the argument of `update`. -/
theorem valid_transitions (c : Call) (self : Record) :
    (self.valid = false → (c.next self).valid = true →
        c.isUpdate = true ∧ c.result self = some true) ∧
      (self.valid = true → (c.next self).valid = false → c = Call.reset) ∧
      (self.valid = true →
        (∀ macString, (setMAC self macString).2.valid = true) ∧
        (∀ macBytes, (setMACBytes self macBytes).valid = true) ∧
        (clearMAC self).valid = true ∧
        (∀ data now, (update self data now).2.valid = true) ∧
        (∀ malloc hexString now, (updateText malloc self hexString now).2.valid = true)) := by
  have keep : self.valid = true →
      (∀ macString, (setMAC self macString).2.valid = true) ∧
      (∀ macBytes, (setMACBytes self macBytes).valid = true) ∧
      (clearMAC self).valid = true ∧
      (∀ data now, (update self data now).2.valid = true) ∧
      (∀ malloc hexString now, (updateText malloc self hexString now).2.valid = true) := by
    intro hv
    refine ⟨fun m => ?_, fun b => hv, hv, fun d n => ?_, fun a t n => ?_⟩
    · rw [(setMAC_frame self m).1, hv]
    · exact (update_valid_iff self d n).mpr (Or.inl hv)
    · exact (updateText_valid_iff a self t n).mpr (Or.inl hv)
  refine ⟨?_, ?_, keep⟩
  · intro hv hn
    cases c with
    | reset => exact absurd hn (by simp [Call.next, reset])
    | clearMAC => exact absurd hn (by simp [Call.next, clearMAC, hv])
    | setMACText m =>
      simp only [Call.next, (setMAC_frame self m).1, hv] at hn
      exact Bool.noConfusion hn
    | setMACBytes b => exact absurd hn (by simp [Call.next, setMACBytes, updateMacStrings, hv])
    | update d n =>
      simp only [Call.next, update_valid_iff, hv] at hn
      have hr : (update self d n).1 = true := hn.resolve_left (fun hf => Bool.noConfusion hf)
      exact ⟨rfl, by simp [Call.result, hr]⟩
    | updateText a t n =>
      simp only [Call.next, updateText_valid_iff, hv] at hn
      have hr : (updateText a self t n).1 = true :=
        hn.resolve_left (fun hf => Bool.noConfusion hf)
      exact ⟨rfl, by simp [Call.result, hr]⟩
  · intro hv hn
    obtain ⟨h1, h2, h3, h4, h5⟩ := keep hv
    cases c with
    | reset => rfl
    | clearMAC => simp [Call.next, h3] at hn
    | setMACText m => simp [Call.next, h1 m] at hn
    | setMACBytes b => simp [Call.next, h2 b] at hn
    | update d n => simp [Call.next, h4 d n] at hn
    | updateText a t n => simp [Call.next, h5 a t n] at hn

theorem valid_transitions_witness :
    construct.valid = false ∧ ((Call.update samplePacket 1000).next construct).valid = true ∧
      (Call.update samplePacket 1000).result construct = some true ∧
      learnedRecord.valid = true ∧ (clearMAC learnedRecord).valid = true ∧
      (update learnedRecord otherPacket 2000).2.valid = true ∧
      (setMAC learnedRecord (some macTextShort)).2.valid = true :=
  have h := valid_transitions (Call.update samplePacket 1000) construct
  have k := (valid_transitions Call.clearMAC learnedRecord).2.2 (by decide)
  ⟨rfl, by decide, (h.1 rfl (by decide)).2, by decide, k.2.2.1, k.2.2.2.1 otherPacket 2000,
    k.1 (some macTextShort)⟩

theorem arraysInSync_of_eq (r r' : Record) (hm : r'.mac = r.mac) (hs : r'.macStr = r.macStr)
    (hr : r'.macStrRaw = r.macStrRaw) (h : ArraysInSync r) : ArraysInSync r' := by
  simp only [ArraysInSync, hm, hs, hr]
  exact h

theorem arraysInSync_updateMacStrings (r : Record) : ArraysInSync (updateMacStrings r) := by
  rw [updateMacStrings_eq]
  exact Or.inl ⟨rfl, rfl⟩

theorem arraysInSync_update (self : Record) (data : List Byte) (now : Nat)
    (h : ArraysInSync self) : ArraysInSync (update self data now).2 := by
  simp only [update]
  split_ifs with h1 h2 h3 h4
  · exact h
  · exact h
  · exact h
  · exact arraysInSync_of_eq (updateMacStrings _) _ rfl rfl rfl (arraysInSync_updateMacStrings _)
  · exact arraysInSync_of_eq self _ rfl rfl rfl h

theorem arraysInSync_next (c : Call) (self : Record) (h : ArraysInSync self) :
    ArraysInSync (c.next self) := by
  cases c with
  | reset => exact Or.inr ⟨rfl, rfl, rfl⟩
  | clearMAC => exact Or.inr ⟨rfl, rfl, rfl⟩
  | setMACText m =>
    cases m with
    | none => exact Or.inr ⟨rfl, rfl, rfl⟩
    | some s =>
      simp only [Call.next, setMAC]
      split_ifs
      · exact Or.inr ⟨rfl, rfl, rfl⟩
      · exact h
      · exact arraysInSync_of_eq (updateMacStrings _) _ rfl rfl rfl
          (arraysInSync_updateMacStrings _)
  | setMACBytes b =>
    exact arraysInSync_of_eq (updateMacStrings _) _ rfl rfl rfl (arraysInSync_updateMacStrings _)
  | update d n => exact arraysInSync_update self d n h
  | updateText a t n =>
    simp only [Call.next, updateText]
    split_ifs
    · exact h
    · cases hm : a (countHexDigits t 0 / 2) with
      | none => exact h
      | some buffer => exact arraysInSync_update self _ n h

theorem arraysInSync_runCalls (calls : List Call) :
    ∀ self : Record, ArraysInSync self → ArraysInSync (runCalls self calls) := by
  induction calls with
  | nil => intro self h; exact h
  | cons c rest ih => intro self h; exact ih (c.next self) (arraysInSync_next c self h)

theorem inSync_of_arraysInSync (r : Record) (h : ArraysInSync r) : InSync r := by
  rcases h with ⟨h1, h2⟩ | ⟨h0, h1, h2⟩
  · left
    rw [h1, h2]
    exact ⟨cstr_append_nul _ _ (colonText_ne_nul r.mac),
      cstr_append_nul _ _ (compactText_ne_nul r.mac)⟩
  · right
    rw [h0, h1, h2]
    exact ⟨rfl, cstr_replicate_nul 18, cstr_replicate_nul 13⟩

/-- C17: in every state reached from a constructed record by any sequence of
`reset`, `clearMAC`, `setMAC` (text or bytes) and `update` (text or bytes) calls, the
formatted strings agree with `mac`: they are the uppercase colon-separated and
compact renderings of the six `mac` bytes, or `mac` is all zero and both strings
are empty. -/
theorem strings_in_sync (calls : List Call) :
    InSync (runCalls construct calls) ∧ ArraysInSync (runCalls construct calls) :=
  have h := arraysInSync_runCalls calls construct (Or.inr ⟨rfl, rfl, rfl⟩)
  ⟨inSync_of_arraysInSync _ h, h⟩

/-! ## Stores of the pairing loops: claim C18 -/

/-- The listed stores are the stores of the loop: performing them in order on the
destination gives the destination the loop leaves. -/
theorem hexPairLoop_buf_eq_foldl {n : Nat} (limit : Nat) (s : List Char) :
    ∀ st : PairState n,
      (hexPairLoop limit s st).buf =
        (hexPairWrites limit s st).foldl (fun b w => b.write w.1 w.2) st.buf := by
  induction s with
  | nil => intro st; rfl
  | cons c p ih =>
    intro st
    simp only [hexPairLoop, hexPairWrites]
    split_ifs
    all_goals first
      | rfl
      | (rw [ih]; rfl)
      | rw [ih]

theorem hexPairWrites_of_not_lt {n : Nat} (limit : Nat) (l : List Char) (st : PairState n)
    (h : ¬ st.byteIdx < limit) : hexPairWrites limit l st = [] := by
  cases l with
  | nil => rfl
  | cons c p => simp [hexPairWrites, h]

theorem hexPairWrites_hexDigits {n : Nat} (limit : Nat) (s : List Char) (st : PairState n) :
    hexPairWrites limit s st = hexPairWrites limit (hexDigits s) st := by
  induction s generalizing st with
  | nil => rfl
  | cons c p ih =>
    by_cases h0 : c = '\x00'
    · subst h0
      rw [hexDigits_cons_nul]
      simp [hexPairWrites]
    · by_cases hl : st.byteIdx < limit
      · cases hc : isHexDigit c
        · rw [hexDigits_cons_other c p h0 hc, ← ih]
          simp [hexPairWrites, h0, hl, hc]
        · rw [hexDigits_cons_hex c p hc]
          simp only [hexPairWrites, h0, hl, hc, if_true, if_false, not_true_eq_false]
          split_ifs
          · rw [ih]
          · exact ih _
      · rw [hexPairWrites_of_not_lt limit _ st hl, hexPairWrites_of_not_lt limit _ st hl]

theorem hexPairWrites_pair {n : Nat} (limit : Nat) (a b : Char) (r : List Char)
    (idx : Nat) (buf : Buf n) (ha : isHexDigit a = true) (hb : isHexDigit b = true)
    (hlt : idx < limit) :
    hexPairWrites limit (a :: b :: r) ⟨idx, 0, 0, buf⟩ =
      (idx, Fin.ofNat (16 * hexValue a + hexValue b)) ::
        hexPairWrites limit r
          ⟨idx + 1, 0, 0, buf.write idx (Fin.ofNat (16 * hexValue a + hexValue b))⟩ := by
  obtain ⟨ea, la⟩ := hexToNibble_eq_hexValue a ha
  obtain ⟨eb, lb⟩ := hexToNibble_eq_hexValue b hb
  have e1 : ((0 <<< 4) ||| hexValue a) % 256 = hexValue a := by
    rw [shift_or_nibbles 0 (hexValue a) (by omega) la]
    omega
  have e2 : ((hexValue a <<< 4) ||| hexValue b) % 256 = 16 * hexValue a + hexValue b :=
    shift_or_nibbles _ _ la lb
  rw [hexPairWrites]
  simp only [isHexDigit_ne_nul a ha, ha, hlt, if_true, if_false, not_true_eq_false, ea, e1]
  rw [if_neg (by decide)]
  rw [hexPairWrites]
  simp only [isHexDigit_ne_nul b hb, hb, hlt, if_true, if_false, not_true_eq_false, eb, e2]

theorem hexPairWrites_single {n : Nat} (limit : Nat) (a : Char) (idx : Nat) (buf : Buf n) :
    hexPairWrites limit [a] ⟨idx, 0, 0, buf⟩ = [] := by
  rw [hexPairWrites]
  split_ifs <;> simp [hexPairWrites]

/-- On a digit sequence that pairs into no more bytes than there are cells left,
the loop stores into consecutive cells from `idx` on, one store per pair. -/
theorem hexPairWrites_digits {n : Nat} (limit : Nat) (d : List Char)
    (hd : ∀ c ∈ d, isHexDigit c = true) :
    ∀ (idx : Nat) (buf : Buf n), idx + d.length / 2 ≤ limit →
      (hexPairWrites limit d ⟨idx, 0, 0, buf⟩).map Prod.fst = List.range' idx (d.length / 2) ∧
        (hexPairWrites limit d ⟨idx, 0, 0, buf⟩).map Prod.snd = pairBytes d := by
  induction d using pairBytes.induct with
  | case1 a b r ih =>
    intro idx buf hle
    have ha := hd a (by simp)
    have hb := hd b (by simp)
    have e : (a :: b :: r).length / 2 = r.length / 2 + 1 := by
      simp only [List.length_cons]
      omega
    rw [e] at hle ⊢
    rw [hexPairWrites_pair limit a b r idx buf ha hb (by omega)]
    have hr := ih (fun c hc => hd c (by simp [hc])) (idx + 1)
      (buf.write idx (Fin.ofNat (16 * hexValue a + hexValue b))) (by omega)
    simp only [List.map_cons, hr.1, hr.2, pairBytes, List.range'_succ]
    exact ⟨trivial, trivial⟩
  | case2 d h =>
    intro idx buf hle
    match d, h with
    | [], _ => simp [hexPairWrites, pairBytes]
    | [a], _ => simp [hexPairWrites_single, pairBytes]
    | a :: b :: rest, h => exact absurd rfl (h a b rest)

theorem hexPairWrites_full {n : Nat} (limit : Nat) (s : List Char) (buf : Buf n)
    (h : (hexDigits s).length / 2 = limit) :
    (hexPairWrites limit s ⟨0, 0, 0, buf⟩).map Prod.fst = List.range limit ∧
      (∀ w ∈ hexPairWrites limit s ⟨0, 0, 0, buf⟩, w.1 < limit) ∧
      (hexPairWrites limit s ⟨0, 0, 0, buf⟩).length = limit := by
  have hr := (hexPairWrites_digits limit (hexDigits s) (isHexDigit_of_mem_hexDigits s) 0 buf
    (by omega)).1
  rw [← hexPairWrites_hexDigits, h, ← List.range_eq_range'] at hr
  refine ⟨hr, ?_, ?_⟩
  · intro w hw
    have hm : w.1 ∈ (hexPairWrites limit s ⟨0, 0, 0, buf⟩).map Prod.fst :=
      List.mem_map_of_mem _ hw
    rw [hr] at hm
    exact List.mem_range.mp hm
  · have hl := congrArg List.length hr
    simpa using hl

theorem store_of_lt {n : Nat} (b : Buf n) (i : Nat) (v : Byte) (h : i < n) :
    b.store i v = some (b.write i v) := by
  simp [Buf.store, h]

/-- With the limit no larger than the array, the checked loop never leaves the
array: it ends in the state of `hexPairLoop`, having made the stores that
`hexPairWrites` lists. -/
theorem hexPairRun_eq {n : Nat} (limit : Nat) (hle : limit ≤ n) (s : List Char) :
    ∀ st : PairState n,
      hexPairRun limit s st = some (hexPairLoop limit s st, hexPairWrites limit s st) := by
  induction s with
  | nil => intro st; rfl
  | cons c p ih =>
    intro st
    by_cases h0 : c = '\x00'
    · simp [hexPairRun, hexPairLoop, hexPairWrites, h0]
    · by_cases hl : st.byteIdx < limit
      · cases hc : isHexDigit c
        · simp only [hexPairRun, hexPairLoop, hexPairWrites, h0, hl, hc, if_false,
            not_true_eq_false, Bool.false_eq_true]
          exact ih st
        · simp only [hexPairRun, hexPairLoop, hexPairWrites, h0, hl, hc, if_true, if_false,
            not_true_eq_false]
          split_ifs
          · rw [store_of_lt st.buf st.byteIdx _ (by omega)]
            simp only [ih, Option.map_some']
          · exact ih _
      · simp [hexPairRun, hexPairLoop, hexPairWrites, h0, hl]

theorem updateTextRun_short (malloc : Allocator) (self : Record) (s : List Char) (now : Nat)
    (h : (hexDigits s).length < 24) :
    updateTextRun malloc self s now = some ((false, self), []) := by
  have hc : countHexDigits s 0 = (hexDigits s).length := by
    rw [countHexDigits_eq]
    omega
  simp only [updateTextRun, TPMS_MIN_PACKET_LENGTH]
  rw [if_pos (by rw [hc]; omega)]

theorem updateTextRun_alloc_failed (malloc : Allocator) (self : Record) (s : List Char)
    (now : Nat) (hm : malloc (countHexDigits s 0 / 2) = none) :
    updateTextRun malloc self s now = some ((false, self), []) := by
  simp only [updateTextRun, hm]
  split_ifs <;> rfl

theorem updateTextRun_alloc (malloc : Allocator) (self : Record) (s : List Char) (now : Nat)
    (h : 24 ≤ (hexDigits s).length) (buffer : Buf (countHexDigits s 0 / 2))
    (hm : malloc (countHexDigits s 0 / 2) = some buffer) :
    updateTextRun malloc self s now =
      some (updateText malloc self s now,
        hexPairWrites (countHexDigits s 0 / 2) s ⟨0, 0, 0, buffer⟩) := by
  have hc : countHexDigits s 0 = (hexDigits s).length := by
    rw [countHexDigits_eq]
    omega
  simp only [updateTextRun, updateText, TPMS_MIN_PACKET_LENGTH]
  rw [if_neg (by rw [hc]; omega), if_neg (by rw [hc]; omega)]
  simp only [hm, hexPairRun_eq _ (le_refl _)]

theorem setMACRun_eq (self : Record) (s : List Char) :
    setMACRun self (some s) =
      some (setMAC self (some s),
        if cstr s ≠ [] ∧ (hexDigits s).length = 12 then hexPairWrites 6 s ⟨0, 0, 0, self.mac⟩
        else []) := by
  have hc : countHexDigits s 0 = (hexDigits s).length := by
    rw [countHexDigits_eq]
    omega
  by_cases he : cstr s = []
  · have hh := (cstr_eq_nil_iff s).mp he
    simp only [setMACRun, setMAC]
    rw [if_pos hh, if_pos hh, if_neg (by simp [he])]
  · have hh : ¬ (s.head? = none ∨ s.head? = some '\x00') := fun h =>
      he ((cstr_eq_nil_iff s).mpr h)
    simp only [setMACRun, setMAC, hc]
    rw [if_neg hh, if_neg hh]
    by_cases h12 : (hexDigits s).length = 12
    · rw [if_neg (by simp [h12]), if_neg (by simp [h12]), if_pos ⟨he, h12⟩]
      simp only [hexPairRun_eq 6 (le_refl 6)]
    · rw [if_pos h12, if_pos h12, if_neg (by simp [h12])]

/-- C18 (counterexample): `sampleText` has 24 hex digits, yet when `malloc` answers
the null pointer `update(text)` makes no store at all, not 12. -/
theorem updateTextRun_alloc_failure_stores_nothing :
    24 ≤ (hexDigits sampleText).length ∧ (hexDigits sampleText).length / 2 = 12 ∧
      updateTextRun nullAlloc construct sampleText 1000 = some ((false, construct), []) := by
  decide

/-- C18 (amended): the stores of the pairing loops stay inside their destination.
`update(text)` and `setMAC(text)`, run with every store checked against the array
bound, never store outside (the checked run ends, with the result of the
function). In `update(text)` with `n >= 24` hex digits and an allocation that
succeeds, the cells stored into are `0, 1, .., n/2 - 1` in this order, every index
below the allocated size `n / 2`, exactly `n / 2` bytes are stored and they are the
bytes `update(bytes, n / 2)` is given; with `n < 24` or a failed allocation nothing is
stored. In `setMAC(text)` with exactly 12 hex digits the cells are `0, .., 5`, every
index below 6, exactly 6 bytes are stored and they are the new `mac`; otherwise
nothing is stored. -/
theorem hexPair_stores_in_bounds (malloc : Allocator) (self : Record) (s : List Char)
    (now : Nat) :
    (∃ stores,
        updateTextRun malloc self s now = some (updateText malloc self s now, stores) ∧
        (∀ w ∈ stores, w.1 < countHexDigits s 0 / 2) ∧
        (24 ≤ (hexDigits s).length → malloc (countHexDigits s 0 / 2) ≠ none →
          stores.map Prod.fst = List.range ((hexDigits s).length / 2) ∧
          stores.length = (hexDigits s).length / 2 ∧
          stores.map Prod.snd = pairBytes (hexDigits s) ∧
          updateText malloc self s now = update self (stores.map Prod.snd) now) ∧
        ((hexDigits s).length < 24 ∨ malloc (countHexDigits s 0 / 2) = none →
          stores = [])) ∧
      countHexDigits s 0 / 2 = (hexDigits s).length / 2 ∧
      (∃ stores,
        setMACRun self (some s) = some (setMAC self (some s), stores) ∧
        (∀ w ∈ stores, w.1 < 6) ∧
        ((hexDigits s).length = 12 →
          stores.map Prod.fst = List.range 6 ∧
          stores.length = 6 ∧
          (setMAC self (some s)).2.mac.val = stores.map Prod.snd) ∧
        ((hexDigits s).length ≠ 12 → stores = [])) := by
  have hc : countHexDigits s 0 = (hexDigits s).length := by
    rw [countHexDigits_eq]
    omega
  have hc2 : countHexDigits s 0 / 2 = (hexDigits s).length / 2 := by rw [hc]
  refine ⟨?_, hc2, ?_⟩
  · by_cases h24 : (hexDigits s).length < 24
    · exact ⟨[], by rw [updateTextRun_short malloc self s now h24,
          updateText_short malloc self s now h24],
        fun w hw => absurd hw (List.not_mem_nil w), fun h => absurd h24 (by omega),
        fun _ => rfl⟩
    · cases hm : malloc (countHexDigits s 0 / 2) with
      | none =>
        exact ⟨[], by rw [updateTextRun_alloc_failed malloc self s now hm,
            updateText_alloc_failed malloc self s now hm],
          fun w hw => absurd hw (List.not_mem_nil w), fun _ hne => absurd rfl hne,
          fun _ => rfl⟩
      | some buffer =>
        have hf := hexPairWrites_full (countHexDigits s 0 / 2) s buffer hc2.symm
        have hd := (hexPairWrites_digits (countHexDigits s 0 / 2) (hexDigits s)
          (isHexDigit_of_mem_hexDigits s) 0 buffer (by omega)).2
        rw [← hexPairWrites_hexDigits] at hd
        refine ⟨hexPairWrites (countHexDigits s 0 / 2) s ⟨0, 0, 0, buffer⟩,
          updateTextRun_alloc malloc self s now (by omega) buffer hm, hf.2.1, ?_, ?_⟩
        · intro _ _
          refine ⟨?_, ?_, hd, ?_⟩
          · rw [← hc2]
            exact hf.1
          · rw [← hc2]
            exact hf.2.2
          · rw [hd]
            exact updateText_eq_update malloc self s now (by omega) buffer hm
        · rintro (h | h)
          · exact absurd h h24
          · exact Option.noConfusion h
  · rw [setMACRun_eq]
    by_cases h12 : (hexDigits s).length = 12
    · have hne : cstr s ≠ [] := by
        intro he
        simp [hexDigits, he] at h12
      have hf := hexPairWrites_full 6 s self.mac (by rw [h12])
      have hd := (hexPairWrites_digits 6 (hexDigits s) (isHexDigit_of_mem_hexDigits s) 0
        self.mac (by omega)).2
      rw [← hexPairWrites_hexDigits] at hd
      rw [if_pos ⟨hne, h12⟩]
      refine ⟨_, rfl, hf.2.1, fun _ => ⟨hf.1, hf.2.2, ?_⟩, fun h => absurd h12 h⟩
      rw [hd]
      exact (setMAC_text_mac self s hne h12).2.1
    · rw [if_neg (fun h => h12 h.2)]
      exact ⟨[], rfl, fun w hw => absurd hw (List.not_mem_nil w), fun h => absurd h h12,
        fun _ => rfl⟩

theorem hexPair_stores_in_bounds_witness :
    24 ≤ (hexDigits (sampleText ++ ['7'])).length ∧
      (hexDigits (sampleText ++ ['7'])).length / 2 = 12 ∧
      junkAlloc (countHexDigits (sampleText ++ ['7']) 0 / 2) ≠ none ∧
      (∃ stores,
        updateTextRun junkAlloc construct (sampleText ++ ['7']) 1000 =
          some (updateText junkAlloc construct (sampleText ++ ['7']) 1000, stores) ∧
        stores.map Prod.fst = List.range ((hexDigits (sampleText ++ ['7'])).length / 2) ∧
        stores.map Prod.snd = pairBytes (hexDigits (sampleText ++ ['7']))) ∧
      (hexDigits macTextColons).length = 12 ∧
      (∃ stores,
        setMACRun learnedRecord (some macTextColons) =
          some (setMAC learnedRecord (some macTextColons), stores) ∧
        stores.map Prod.fst = List.range 6 ∧
        (setMAC learnedRecord (some macTextColons)).2.mac.val = stores.map Prod.snd) ∧
      updateTextRun junkAlloc construct sampleText 1000 =
        some (update construct samplePacket 1000,
          [(0, 30), (1, 25), (2, 1), (3, 44), (4, 0), (5, 0), (6, 0xAA), (7, 0xBB), (8, 0xCC),
            (9, 0xDD), (10, 0xEE), (11, 0xFF)]) :=
  have ha : junkAlloc (countHexDigits (sampleText ++ ['7']) 0 / 2) ≠ none := by
    simp [junkAlloc]
  have h := hexPair_stores_in_bounds junkAlloc construct (sampleText ++ ['7']) 1000
  have k := hexPair_stores_in_bounds junkAlloc learnedRecord macTextColons 1000
  ⟨by decide, by decide, ha,
    h.1.elim fun stores hs =>
      ⟨stores, hs.1, (hs.2.2.1 (by decide) ha).1, (hs.2.2.1 (by decide) ha).2.2.1⟩,
    by decide,
    k.2.2.elim fun stores hs =>
      ⟨stores, hs.1, (hs.2.2.1 (by decide)).1, (hs.2.2.1 (by decide)).2.2⟩,
    by decide⟩

/-! ## Frame and idempotence of the decoder: claims C19 and C20 -/

theorem getD_set_set_ne (l : List Byte) (i j k : Nat) (x y : Byte) (hi : i ≠ k) (hj : j ≠ k) :
    ((l.set i x).set j y).getD k 0 = l.getD k 0 := by
  simp only [List.getD_eq_getElem?_getD, List.getElem?_set_ne hj, List.getElem?_set_ne hi]

theorem readMac_set_set (l : List Byte) (x y : Byte) (h : 12 ≤ l.length) :
    readMac ((l.set (l.length - 8) x).set (l.length - 7) y) (l.length - 6) =
      readMac l (l.length - 6) := by
  simp only [readMac]
  rw [getD_set_set_ne l _ _ (l.length - 6) x y (by omega) (by omega),
    getD_set_set_ne l _ _ (l.length - 6 + 1) x y (by omega) (by omega),
    getD_set_set_ne l _ _ (l.length - 6 + 2) x y (by omega) (by omega),
    getD_set_set_ne l _ _ (l.length - 6 + 3) x y (by omega) (by omega),
    getD_set_set_ne l _ _ (l.length - 6 + 4) x y (by omega) (by omega),
    getD_set_set_ne l _ _ (l.length - 6 + 5) x y (by omega) (by omega)]

/-- Bytes 4 and 5 of the trailing region do not enter `update`. -/
theorem update_set_set (self : Record) (data : List Byte) (now : Nat) (x y : Byte)
    (h : 12 ≤ data.length) :
    update self ((data.set (data.length - 8) x).set (data.length - 7) y) now =
      update self data now := by
  have hm := readMac_set_set data x y h
  have g : ∀ k, k < 4 →
      ((data.set (data.length - 8) x).set (data.length - 7) y).getD (data.length - 12 + k) 0 =
        data.getD (data.length - 12 + k) 0 :=
    fun k hk => getD_set_set_ne data _ _ _ x y (by omega) (by omega)
  simp only [update, TPMS_MIN_PACKET_LENGTH, List.length_set, hm, g 0 (by omega),
    g 1 (by omega), g 2 (by omega), g 3 (by omega)]

theorem update_configured_eq (self : Record) (data : List Byte) (now : Nat)
    (hset : self.macSet = true) (h : (update self data now).1 = true) :
    (update self data now).2.mac = self.mac ∧
      (update self data now).2.macStr = self.macStr ∧
      (update self data now).2.macStrRaw = self.macStrRaw := by
  simp only [update, hset] at h ⊢
  split_ifs at h ⊢ <;> simp_all

/-- C19: a successful `update` leaves `flags` and `macSet` as they were and, when
`macSet` is true, also `mac` and its two formatted strings, so that it changes
only `voltageRaw`, `temperatureRaw`, `pressureRaw`, `lastUpdateTime`, `valid` and (when
`macSet` is false) `mac` with both strings; and its outcome does not depend on bytes
4 and 5 of the 12-byte trailing region. -/
theorem update_frame (self : Record) (data : List Byte) (now : Nat)
    (h : (update self data now).1 = true) :
    (update self data now).2.flags = self.flags ∧
      (update self data now).2.macSet = self.macSet ∧
      (self.macSet = true →
        (update self data now).2.mac = self.mac ∧
        (update self data now).2.macStr = self.macStr ∧
        (update self data now).2.macStrRaw = self.macStrRaw) ∧
      (∀ x y : Byte,
        update self ((data.set (data.length - 8) x).set (data.length - 7) y) now =
          update self data now) := by
  have hs := update_success_fields self data now h
  have hl : 12 ≤ data.length := ((update_fst_eq_true_iff self data now).mp h).1
  exact ⟨hs.2.2.1, hs.2.2.2, fun hset => update_configured_eq self data now hset h,
    fun x y => update_set_set self data now x y hl⟩

theorem update_frame_witness :
    (update boundRecord otherPacket 1000).1 = true ∧
      (update boundRecord otherPacket 1000).2.flags = boundRecord.flags ∧
      (update boundRecord otherPacket 1000).2.mac = boundRecord.mac ∧
      update boundRecord ((otherPacket.set (otherPacket.length - 8) 7).set
          (otherPacket.length - 7) 9) 1000 = update boundRecord otherPacket 1000 :=
  have h := update_frame boundRecord otherPacket 1000 (by decide)
  ⟨by decide, h.1, (h.2.2.1 rfl).1, h.2.2.2 7 9⟩

/-- After a successful `update` the record holds the packet's fields. -/
theorem update_success_eq (self : Record) (data : List Byte) (now : Nat)
    (h : (update self data now).1 = true) :
    (update self data now).2 =
      { (if self.macSet = false then
            updateMacStrings { self with mac := readMac data (data.length - 6) }
          else self) with
        voltageRaw := data.getD (data.length - 12 + 0) 0
        temperatureRaw := data.getD (data.length - 12 + 1) 0
        pressureRaw :=
          (((data.getD (data.length - 12 + 2) 0).val <<< 8) |||
            (data.getD (data.length - 12 + 3) 0).val) % 65536
        lastUpdateTime := now
        valid := true } := by
  simp only [update, TPMS_MIN_PACKET_LENGTH] at h ⊢
  split_ifs at h ⊢ <;> simp_all [updateMacStrings]

theorem update_success_learn (self : Record) (data : List Byte) (now : Nat)
    (hm : self.macSet = false) (h : (update self data now).1 = true) :
    (update self data now).2 =
      { self with
        mac := readMac data (data.length - 6)
        macStr := colonText (readMac data (data.length - 6)).val ++ ['\x00']
        macStrRaw := compactText (readMac data (data.length - 6)).val ++ ['\x00']
        voltageRaw := data.getD (data.length - 12 + 0) 0
        temperatureRaw := data.getD (data.length - 12 + 1) 0
        pressureRaw :=
          (((data.getD (data.length - 12 + 2) 0).val <<< 8) |||
            (data.getD (data.length - 12 + 3) 0).val) % 65536
        lastUpdateTime := now
        valid := true } := by
  rw [update_success_eq self data now h, if_pos hm, updateMacStrings_eq]

theorem update_success_keep (self : Record) (data : List Byte) (now : Nat)
    (hm : self.macSet = true) (h : (update self data now).1 = true) :
    (update self data now).2 =
      { self with
        voltageRaw := data.getD (data.length - 12 + 0) 0
        temperatureRaw := data.getD (data.length - 12 + 1) 0
        pressureRaw :=
          (((data.getD (data.length - 12 + 2) 0).val <<< 8) |||
            (data.getD (data.length - 12 + 3) 0).val) % 65536
        lastUpdateTime := now
        valid := true } := by
  rw [update_success_eq self data now h, if_neg (by rw [hm]; decide)]

/-- C20: if `update(p)` at clock reading `t` returns true and leaves the record `s'`,
then `update(p)` on `s'` at the same clock reading returns true again and leaves `s'`. -/
theorem update_idempotent (self : Record) (data : List Byte) (t : Nat)
    (h : (update self data t).1 = true) :
    (update (update self data t).2 data t).1 = true ∧
      (update (update self data t).2 data t).2 = (update self data t).2 := by
  have hiff := (update_fst_eq_true_iff self data t).mp h
  cases hm : self.macSet
  · have e := update_success_learn self data t hm h
    have h2 : (update (update self data t).2 data t).1 = true := by
      rw [update_fst_eq_true_iff, e]
      exact ⟨hiff.1, Or.inr rfl⟩
    refine ⟨h2, ?_⟩
    have hm2 : (update self data t).2.macSet = false := by rw [e]; exact hm
    rw [update_success_learn _ data t hm2 h2, e]
  · have e := update_success_keep self data t hm h
    have hq : readMac data (data.length - 6) = self.mac := by
      rcases hiff.2 with ⟨hf, _⟩ | hq
      · rw [hm] at hf
        exact Bool.noConfusion hf
      · exact hq
    have h2 : (update (update self data t).2 data t).1 = true := by
      rw [update_fst_eq_true_iff, e]
      exact ⟨hiff.1, Or.inr hq⟩
    refine ⟨h2, ?_⟩
    have hm2 : (update self data t).2.macSet = true := by rw [e]; exact hm
    rw [update_success_keep _ data t hm2 h2, e]

theorem update_idempotent_witness :
    (update construct samplePacket 1000).1 = true ∧
      (update (update construct samplePacket 1000).2 samplePacket 1000).1 = true ∧
      (update (update construct samplePacket 1000).2 samplePacket 1000).2 =
        (update construct samplePacket 1000).2 :=
  have h := update_idempotent construct samplePacket 1000 (by decide)
  ⟨by decide, h.1, h.2⟩

end DJTPMS
